import Mathlib

/-!
# github-release-stats: interval statistics over a release history

A shallow embedding of `main.go`.

* Go strings are Lean `String`s; `strings.Split` with a one-character
  separator is `Split`.
* `time.Duration` is an `int64` count of nanoseconds, embedded as `Int`;
  `int64` addition wraps (`wrap64`) and `/` truncates toward zero
  (`Int.tdiv`).
* `time.Time` is an instant, embedded as an unbounded `Int` count of
  nanoseconds; `Time.Sub` saturates at the `int64` bounds as in the Go
  library.
* `float64` is embedded as exact arithmetic: `ℚ` for `toDays` and the
  squared deviations, and the value of `math.Sqrt` as the real square
  root of its (rational) argument.
* `getRepoStats` and `main` take the fetcher as a function of the owner and
  the name; `fetchMajorReleases` takes `client.Query` as a function of the
  query inputs, and fuel for its unbounded loop.
* Slice indexing is `index`, which fails out of range; `main` runs in
  `Except Panic`, and `scanChecked` is the scan of `getRepoStats` with the
  index check explicit.
-/

namespace ReleaseStats

/-! ## Strings -/

/-- Splitting of a character list at every occurrence of `sep`; the pieces are
returned in order, and a list without `sep` is returned as its only piece. -/
def splitChars (sep : Char) : List Char → List (List Char)
  | [] => [[]]
  | c :: cs =>
    if c = sep then [] :: splitChars sep cs
    else
      match splitChars sep cs with
      | [] => [[c]]
      | p :: ps => (c :: p) :: ps

/-- Go `strings.Split(s, sep)` for a separator of one character. -/
def Split (s : String) (sep : Char) : List String :=
  (splitChars sep s.data).map String.mk

/-- Go `strings.Contains(s, sep)` for a separator of one character. -/
def Contains (s : String) (sep : Char) : Bool :=
  s.data.contains sep

/-! ## Time -/

/-- Go `time.Duration`: nanoseconds, an `int64`. -/
abbrev Duration := Int

def minDuration : Duration := -(2 ^ 63)

def maxDuration : Duration := 2 ^ 63 - 1

def Nanosecond : Duration := 1

def Second : Duration := 1000000000 * Nanosecond

def Minute : Duration := 60 * Second

def Hour : Duration := 60 * Minute

/-- Go `time.Time`, an instant: nanoseconds since a fixed epoch. -/
structure Time where
  ns : Int
  deriving DecidableEq, Repr

/-- Go `Time.Sub`: the duration `t - u`, or the minimum (maximum) duration when
the difference is below (above) what a `Duration` holds. -/
def Time.Sub (t u : Time) : Duration :=
  let d := t.ns - u.ns
  if d < minDuration then minDuration
  else if d > maxDuration then maxDuration
  else d

/-- Two's-complement wrap of an integer to `int64`. -/
def wrap64 (x : Int) : Int :=
  (x + 2 ^ 63) % 2 ^ 64 - 2 ^ 63

/-! ## Data model -/

structure release where
  Name : String
  PublishedAt : Time
  deriving DecidableEq, Repr

/-- The value `math.Sqrt(t)` of a `float64`, held by its argument. -/
structure Sqrt where
  radicand : ℚ
  deriving DecidableEq

/-- The real number a `Sqrt` stands for. -/
noncomputable def Sqrt.toReal (s : Sqrt) : ℝ :=
  Real.sqrt (s.radicand : ℝ)

structure repoStats where
  owner : String
  repo : String
  dotZeroVersions : Int
  minDaysBetween : ℚ
  averageDaysBetween : ℚ
  maxDaysBetween : ℚ
  standardDeviation : Sqrt
  deriving DecidableEq

/-! ## `getRepoStats` -/

/-- `toDays`: `float64(d) / float64(24*time.Hour)`. -/
def toDays (d : Duration) : ℚ :=
  (d : ℚ) / ((24 * Hour : Int) : ℚ)

/-- The test of lines 101-104: `true` when the loop does not `continue`, that
is unless `len(parts) < 3 || parts[2] != "0"`. -/
def qualifies (name : String) : Bool :=
  let parts := Split name '.'
  !(decide (parts.length < 3) || parts.getD 2 "" != "0")

/-- The variables of the first loop: `prev` and `deltas`. -/
structure ScanState where
  prev : release
  deltas : List Duration
  deriving DecidableEq

/-- One iteration of the loop of lines 95-110. -/
def scanStep (st : ScanState) (r : release) : ScanState :=
  if st.prev.Name = "" then
    { st with prev := r }
  else
    let parts := Split r.Name '.'
    if decide (parts.length < 3) || parts.getD 2 "" != "0" then
      st
    else
      let delta := r.PublishedAt.Sub st.prev.PublishedAt
      { prev := r, deltas := st.deltas ++ [delta] }

/-- The loop of lines 92-110, from `var prev release` and a nil `deltas`. -/
def scan (releases : List release) : ScanState :=
  releases.foldl scanStep { prev := ⟨"", ⟨0⟩⟩, deltas := [] }

/-- The interval list `deltas` after the first loop. -/
def scanDeltas (releases : List release) : List Duration :=
  (scan releases).deltas

/-- The variables of the second loop: `min`, `max` and `sum`. -/
structure Agg where
  min : Duration
  max : Duration
  sum : Int
  deriving DecidableEq, Repr

/-- One iteration of the loop of lines 114-130. -/
def aggStep (a : Agg) (d : Duration) : Agg :=
  let min1 := if a.min = 0 then d else a.min
  let min2 := if d < min1 then d else min1
  let max1 := if a.max = 0 then d else a.max
  let max2 := if d > max1 then d else max1
  { min := min2, max := max2, sum := wrap64 (a.sum + d) }

/-- The loop of lines 112-130. -/
def aggregate (deltas : List Duration) : Agg :=
  deltas.foldl aggStep { min := 0, max := 0, sum := 0 }

/-- The accumulation of lines 139-144: the sum of squared distances to
`avgDays`. -/
def sumSquares (avgDays : ℚ) (deltas : List Duration) : ℚ :=
  deltas.foldl (fun t d => t + (toDays d - avgDays) * (toDays d - avgDays)) 0

/-- Lines 112-157: the statistics of an interval list, `none` for the
`return nil, nil` of an empty list. -/
def stats (owner repo : String) (deltas : List Duration) : Option repoStats :=
  let a := aggregate deltas
  if deltas.length = 0 then none
  else
    let avg := Int.tdiv a.sum (deltas.length : Int)
    let avgDays := toDays avg
    let t := sumSquares avgDays deltas / (deltas.length : ℚ)
    some
      { owner := owner
        repo := repo
        dotZeroVersions := deltas.length
        minDaysBetween := toDays a.min
        averageDaysBetween := avgDays
        maxDaysBetween := toDays a.max
        standardDeviation := ⟨t⟩ }

/-- `getRepoStats`, over the fetcher it calls: an error of the fetch is
returned, `ok none` is the `nil, nil` return. -/
def getRepoStats {ε : Type} (fetchMajorReleases : String → String → Except ε (List release))
    (owner repo : String) : Except ε (Option repoStats) :=
  match fetchMajorReleases owner repo with
  | .error err => .error err
  | .ok releases => .ok (stats owner repo (scanDeltas releases))

/-! ## Reference notions used in the statements -/

/-- The differences of publish times of neighbours along a list of releases. -/
def consecutiveDiffs : List release → List Duration
  | a :: b :: rest => b.PublishedAt.Sub a.PublishedAt :: consecutiveDiffs (b :: rest)
  | _ => []

def Day : Duration := 24 * Hour

/-- The instant `n` days after `t0`. -/
def Time.addDays (t0 : Time) (n : Int) : Time :=
  ⟨t0.ns + n * Day⟩

/-- The mean of the per-interval day values, which `getRepoStats` does not
compute. -/
def meanOfDays (ds : List Duration) : ℚ :=
  (ds.map toDays).sum / (ds.length : ℚ)

/-- The release list without its leading releases of empty name. -/
def dropEmptyNamed (releases : List release) : List release :=
  releases.dropWhile (fun r => r.Name == "")

/-- No neighbours along the list are so far apart that `Time.Sub` saturates. -/
def noSaturation : List release → Bool
  | a :: b :: rest =>
    decide (minDuration ≤ b.PublishedAt.ns - a.PublishedAt.ns) &&
      decide (b.PublishedAt.ns - a.PublishedAt.ns ≤ maxDuration) && noSaturation (b :: rest)
  | _ => true

/-- The time from the first release to the last qualifying release after it
(to itself when none qualifies), in nanoseconds. -/
def span (r0 : release) (rest : List release) : Int :=
  ((rest.filter (fun r => qualifies r.Name)).getLastD r0).PublishedAt.ns - r0.PublishedAt.ns

/-! ## Index checks -/

/-- A Go run-time failure: an index out of range. -/
inductive Panic where
  | indexOutOfRange (i len : Nat)
  deriving DecidableEq, Repr

/-- Go `xs[i]` with its bounds check. -/
def index (xs : List String) (i : Nat) : Except Panic String :=
  match xs[i]? with
  | some x => .ok x
  | none => .error (.indexOutOfRange i xs.length)

/-- One iteration of the loop of lines 95-110 with the index check of
`parts[2]` and the short-circuit of `||` explicit. -/
def scanStepChecked (st : ScanState) (r : release) : Except Panic ScanState :=
  if st.prev.Name = "" then
    .ok { st with prev := r }
  else
    let parts := Split r.Name '.'
    if parts.length < 3 then
      .ok st
    else
      match index parts 2 with
      | .error e => .error e
      | .ok p =>
        if p != "0" then .ok st
        else
          let delta := r.PublishedAt.Sub st.prev.PublishedAt
          .ok { prev := r, deltas := st.deltas ++ [delta] }

/-- The loop of lines 92-110 with index checks. -/
def scanChecked : List release → ScanState → Except Panic ScanState
  | [], st => .ok st
  | r :: rest, st =>
    match scanStepChecked st r with
    | .error e => .error e
    | .ok st1 => scanChecked rest st1

/-! ## `main` -/

/-- Lines 46-55: the owner and the name to query for an identifier; `none` is
the `continue` of line 54. -/
def resolve (owner repo : String) : Except Panic (Option (String × String)) :=
  if Contains repo '/' then
    let parts := Split repo '/'
    match index parts 0 with
    | .error e => .error e
    | .ok ownerToCheck =>
      match index parts 1 with
      | .error e => .error e
      | .ok repoToCheck => .ok (some (ownerToCheck, repoToCheck))
  else if owner = "" then .ok none
  else .ok (some (owner, repo))

/-- The lines `main` writes to the log. -/
inductive LogLine (ε : Type) where
  | skipping (repo : String)
  | errorGettingStats (owner repo : String) (err : ε)

/-- The variables of the loop of `main`: the rows `stats`, and the log. -/
structure MainState (ε : Type) where
  stats : List repoStats
  log : List (LogLine ε)

/-- One iteration of the loop of lines 45-65. -/
def mainStep {ε : Type} (fetchMajorReleases : String → String → Except ε (List release))
    (owner : String) (st : MainState ε) (repo : String) : Except Panic (MainState ε) :=
  match resolve owner repo with
  | .error e => .error e
  | .ok none => .ok { st with log := st.log ++ [.skipping repo] }
  | .ok (some (ownerToCheck, repoToCheck)) =>
    match getRepoStats fetchMajorReleases ownerToCheck repoToCheck with
    | .error err =>
      .ok { st with log := st.log ++ [.errorGettingStats ownerToCheck repoToCheck err] }
    | .ok none => .ok st
    | .ok (some s) => .ok { st with stats := st.stats ++ [s] }

/-- The loop of lines 45-65. -/
def mainLoop {ε : Type} (fetchMajorReleases : String → String → Except ε (List release))
    (owner : String) : List String → MainState ε → Except Panic (MainState ε)
  | [], st => .ok st
  | repo :: rest, st =>
    match mainStep fetchMajorReleases owner st repo with
    | .error e => .error e
    | .ok st1 => mainLoop fetchMajorReleases owner rest st1

/-- What a run of `main` ends in: `os.Exit(1)` after the usage text, or the
table of the rows. -/
inductive MainResult (ε : Type) where
  | exit (code : Nat)
  | report (rows : List repoStats) (log : List (LogLine ε))

/-- Lines 29-72 of `main`, over the parsed flags `--owner` and `--repos`. -/
def main {ε : Type} (fetchMajorReleases : String → String → Except ε (List release))
    (owner : String) (repos : List String) : Except Panic (MainResult ε) :=
  if repos.length = 0 then .ok (.exit 1)
  else
    match mainLoop fetchMajorReleases owner repos { stats := [], log := [] } with
    | .error e => .error e
    | .ok st => .ok (.report st.stats st.log)

/-- The row of an identifier, if it has one: the record `getRepoStats` returns
for the resolved owner and name. -/
def rowOf {ε : Type} (fetchMajorReleases : String → String → Except ε (List release))
    (owner repo : String) : Option repoStats :=
  match resolve owner repo with
  | .ok (some (ownerToCheck, repoToCheck)) =>
    match getRepoStats fetchMajorReleases ownerToCheck repoToCheck with
    | .ok (some s) => some s
    | _ => none
  | _ => none

/-- The log lines `main` writes for an identifier: the "Skipping" line when it
has no owner, the "Error" line when `getRepoStats` returns an error. -/
def logOf {ε : Type} (fetchMajorReleases : String → String → Except ε (List release))
    (owner repo : String) : List (LogLine ε) :=
  match resolve owner repo with
  | .ok none => [.skipping repo]
  | .ok (some (ownerToCheck, repoToCheck)) =>
    match getRepoStats fetchMajorReleases ownerToCheck repoToCheck with
    | .error err => [.errorGettingStats ownerToCheck repoToCheck err]
    | _ => []
  | _ => []

/-! ## `fetchMajorReleases` -/

/-- The answer to one query: `q.Repository.Releases`. -/
structure Page where
  Nodes : List release
  EndCursor : String
  HasNextPage : Bool
  deriving DecidableEq, Repr

/-- The loop of lines 188-203 from the variables `after` and `releases`, over
the query `client.Query` as a function of the inputs `owner`, `name` and
`after`; `none` when the fuel does not suffice for the loop to end. -/
def fetchLoop {ε : Type} (query : String → String → Option String → Except ε Page)
    (owner repo : String) : Nat → Option String → List release → Option (Except ε (List release))
  | 0, _, _ => none
  | fuel + 1, after, releases =>
    match query owner repo after with
    | .error err => some (.error err)
    | .ok q =>
      let releases1 := releases ++ q.Nodes
      if !q.HasNextPage then some (.ok releases1)
      else fetchLoop query owner repo fuel (some q.EndCursor) releases1

/-- `fetchMajorReleases`: the loop from a nil `after` and nil `releases`. -/
def fetchMajorReleases {ε : Type} (query : String → String → Option String → Except ε Page)
    (fuel : Nat) (owner repo : String) : Option (Except ε (List release)) :=
  fetchLoop query owner repo fuel none []

/-- A chain of pages from the cursor `after`: each page is the answer to the
query with the end cursor of the page before it (the first to `after`), and
only the last page has no next page. -/
def PageChain {ε : Type} (query : String → String → Option String → Except ε Page)
    (owner repo : String) : Option String → List Page → Prop
  | _, [] => False
  | after, [p] => query owner repo after = .ok p ∧ p.HasNextPage = false
  | after, p :: p1 :: ps =>
    query owner repo after = .ok p ∧ p.HasNextPage = true ∧
      PageChain query owner repo (some p.EndCursor) (p1 :: ps)

/-- A chain of pages from the cursor `after`, each with a next page, after
which the query fails with `err`. -/
def FailingChain {ε : Type} (query : String → String → Option String → Except ε Page)
    (owner repo : String) (err : ε) : Option String → List Page → Prop
  | after, [] => query owner repo after = .error err
  | after, p :: ps =>
    query owner repo after = .ok p ∧ p.HasNextPage = true ∧
      FailingChain query owner repo err (some p.EndCursor) ps

/-! ## `strings.Split` -/

theorem splitChars_ne_nil (sep : Char) (cs : List Char) : splitChars sep cs ≠ [] := by
  cases cs with
  | nil => simp [splitChars]
  | cons c cs =>
    unfold splitChars
    split
    · simp
    · split <;> simp

/-- The first piece of a split has no separator; it is the whole input when it
is the only piece, and is otherwise followed in the input by a separator and
the input of the remaining pieces. -/
theorem splitChars_cons (sep : Char) :
    ∀ (cs p : List Char) (ps : List (List Char)), splitChars sep cs = p :: ps →
      sep ∉ p ∧ ((ps = [] ∧ cs = p) ∨
        ∃ cs1, cs = p ++ sep :: cs1 ∧ splitChars sep cs1 = ps) := by
  intro cs
  induction cs with
  | nil =>
    intro p ps h
    simp [splitChars] at h
    obtain ⟨rfl, rfl⟩ := h
    simp
  | cons c cs ih =>
    intro p ps h
    unfold splitChars at h
    by_cases hc : c = sep
    · simp only [hc, if_true, List.cons.injEq] at h
      obtain ⟨rfl, rfl⟩ := h
      refine ⟨by simp, Or.inr ⟨cs, by simp [hc], rfl⟩⟩
    · simp only [hc, if_false] at h
      cases hs : splitChars sep cs with
      | nil => exact absurd hs (splitChars_ne_nil sep cs)
      | cons q qs =>
        rw [hs] at h
        simp only [List.cons.injEq] at h
        obtain ⟨rfl, rfl⟩ := h
        obtain ⟨hq, hrest⟩ := ih q qs hs
        refine ⟨?_, ?_⟩
        · simp only [List.mem_cons, not_or]
          exact ⟨fun e => hc e.symm, hq⟩
        · rcases hrest with ⟨h1, h2⟩ | ⟨cs1, h1, h2⟩
          · exact Or.inl ⟨h1, by rw [h2]⟩
          · exact Or.inr ⟨cs1, by rw [h1]; rfl, h2⟩

theorem splitChars_of_not_mem (sep : Char) :
    ∀ a : List Char, sep ∉ a → splitChars sep a = [a] := by
  intro a
  induction a with
  | nil => intro _; rfl
  | cons c cs ih =>
    intro h
    simp only [List.mem_cons, not_or] at h
    unfold splitChars
    rw [if_neg (fun e => h.1 e.symm), ih h.2]

theorem splitChars_append_sep (sep : Char) (rest : List Char) :
    ∀ a : List Char, sep ∉ a →
      splitChars sep (a ++ sep :: rest) = a :: splitChars sep rest := by
  intro a
  induction a with
  | nil =>
    intro _
    simp [splitChars]
  | cons c cs ih =>
    intro h
    simp only [List.mem_cons, not_or] at h
    rw [List.cons_append, splitChars, if_neg (fun e => h.1 e.symm), ih h.2]

theorem Split_length (s : String) (sep : Char) :
    (Split s sep).length = (splitChars sep s.data).length := by
  simp [Split]

theorem Split_getElem? (s : String) (sep : Char) (i : Nat) :
    (Split s sep)[i]? = ((splitChars sep s.data)[i]?).map String.mk := by
  simp [Split]

theorem String_mk_eq_zero (cs : List Char) : String.mk cs = "0" ↔ cs = ['0'] := by
  constructor
  · intro h
    have := congrArg String.data h
    simpa using this
  · rintro rfl
    rfl

/-- The test of `getRepoStats` in terms of the pieces of the split. -/
theorem qualifies_iff_parts (s : String) :
    qualifies s = true ↔
      3 ≤ (Split s '.').length ∧ (Split s '.')[2]? = some "0" := by
  unfold qualifies
  generalize Split s '.' = l
  rcases l with _ | ⟨a, _ | ⟨b, _ | ⟨c, l⟩⟩⟩ <;> simp

theorem qualifies_iff_chars (s : String) :
    qualifies s = true ↔
      ∃ p0 p1 ps, splitChars '.' s.data = p0 :: p1 :: ['0'] :: ps := by
  rw [qualifies_iff_parts, Split_length, Split_getElem?]
  constructor
  · rintro ⟨hlen, h2⟩
    rcases hs : splitChars '.' s.data with _ | ⟨a, _ | ⟨b, _ | ⟨c, l⟩⟩⟩
    · rw [hs] at hlen; simp at hlen
    · rw [hs] at hlen; simp at hlen
    · rw [hs] at hlen; simp at hlen
    · rw [hs] at h2
      simp only [List.getElem?_cons_succ, List.getElem?_cons_zero, Option.map_some',
        Option.some.injEq] at h2
      rw [String_mk_eq_zero] at h2
      exact ⟨a, b, l, by rw [h2]⟩
  · rintro ⟨p0, p1, ps, h⟩
    rw [h]
    refine ⟨by simp, ?_⟩
    simp only [List.getElem?_cons_succ, List.getElem?_cons_zero, Option.map_some']

/-- The names that pass the test, by their shape: two dot-free components, each
followed by a dot, then the character `0`, then the end of the name or another
dot. -/
theorem qualifies_iff_shape (s : String) :
    qualifies s = true ↔
      ∃ a b t : List Char, '.' ∉ a ∧ '.' ∉ b ∧ (t = [] ∨ ∃ u, t = '.' :: u) ∧
        s.data = a ++ '.' :: (b ++ '.' :: '0' :: t) := by
  rw [qualifies_iff_chars]
  constructor
  · rintro ⟨p0, p1, ps, h⟩
    obtain ⟨h0, hr0⟩ := splitChars_cons '.' _ _ _ h
    rcases hr0 with ⟨hnil, _⟩ | ⟨cs1, e1, hs1⟩
    · simp at hnil
    obtain ⟨h1, hr1⟩ := splitChars_cons '.' _ _ _ hs1
    rcases hr1 with ⟨hnil, _⟩ | ⟨cs2, e2, hs2⟩
    · simp at hnil
    obtain ⟨_, hr2⟩ := splitChars_cons '.' _ _ _ hs2
    rcases hr2 with ⟨_, e3⟩ | ⟨cs3, e3, _⟩
    · exact ⟨p0, p1, [], h0, h1, Or.inl rfl, by rw [e1, e2, e3]⟩
    · exact ⟨p0, p1, '.' :: cs3, h0, h1, Or.inr ⟨cs3, rfl⟩, by rw [e1, e2, e3]; rfl⟩
  · rintro ⟨a, b, t, ha, hb, ht, hs⟩
    rw [hs, splitChars_append_sep '.' _ a ha, splitChars_append_sep '.' _ b hb]
    rcases ht with rfl | ⟨u, rfl⟩
    · exact ⟨a, b, [], rfl⟩
    · refine ⟨a, b, splitChars '.' u, ?_⟩
      have := splitChars_append_sep '.' u ['0'] (by decide)
      simp only [List.singleton_append] at this
      rw [this]

theorem qualifies_imp_ne_empty (s : String) (h : qualifies s = true) : s ≠ "" := by
  rintro rfl
  revert h
  decide

/-! ## The scan of lines 92-110 -/

theorem scanStep_of_named (st : ScanState) (r : release) (h : st.prev.Name ≠ "") :
    scanStep st r =
      if qualifies r.Name = true then
        { prev := r, deltas := st.deltas ++ [r.PublishedAt.Sub st.prev.PublishedAt] }
      else st := by
  unfold scanStep qualifies
  rw [if_neg h]
  dsimp only
  generalize (decide ((Split r.Name '.').length < 3) ||
      (Split r.Name '.').getD 2 "" != "0") = c
  cases c <;> simp

theorem scanStep_deltas_of_not_qualifies (st : ScanState) (r : release)
    (h : qualifies r.Name = false) : (scanStep st r).deltas = st.deltas := by
  by_cases hn : st.prev.Name = ""
  · simp [scanStep, hn]
  · rw [scanStep_of_named st r hn, h]
    simp

theorem foldl_scanStep_deltas_of_not_qualifies :
    ∀ (rest : List release) (st : ScanState),
      (∀ r ∈ rest, qualifies r.Name = false) →
      (rest.foldl scanStep st).deltas = st.deltas := by
  intro rest
  induction rest with
  | nil => intro st _; rfl
  | cons r rest ih =>
    intro st h
    rw [List.foldl_cons, ih _ (fun x hx => h x (List.mem_cons_of_mem _ hx)),
      scanStep_deltas_of_not_qualifies st r (h r (List.mem_cons_self _ _))]

theorem foldl_scanStep_deltas :
    ∀ (rest : List release) (st : ScanState), st.prev.Name ≠ "" →
      (rest.foldl scanStep st).deltas =
        st.deltas ++ consecutiveDiffs (st.prev :: rest.filter (fun r => qualifies r.Name)) := by
  intro rest
  induction rest with
  | nil => intro st _; simp [consecutiveDiffs]
  | cons r rest ih =>
    intro st h
    rw [List.foldl_cons, scanStep_of_named st r h]
    by_cases hq : qualifies r.Name = true
    · rw [if_pos hq, ih _ (qualifies_imp_ne_empty _ hq)]
      simp [List.filter_cons, hq, consecutiveDiffs]
    · rw [if_neg hq, ih _ h]
      simp [List.filter_cons, hq]

theorem foldl_scanStep_prev :
    ∀ (rest : List release) (st : ScanState), st.prev.Name ≠ "" →
      (rest.foldl scanStep st).prev =
        (rest.filter (fun r => qualifies r.Name)).getLastD st.prev := by
  intro rest
  induction rest with
  | nil => intro st _; rfl
  | cons r rest ih =>
    intro st h
    rw [List.foldl_cons, scanStep_of_named st r h]
    by_cases hq : qualifies r.Name = true
    · rw [if_pos hq, ih _ (qualifies_imp_ne_empty _ hq), List.filter_cons, if_pos hq,
        List.getLastD_cons]
    · rw [if_neg hq, ih _ h, List.filter_cons, if_neg hq]

theorem scan_cons (r0 : release) (rest : List release) :
    scan (r0 :: rest) = rest.foldl scanStep { prev := r0, deltas := [] } := by
  simp [scan, scanStep]

theorem consecutiveDiffs_length :
    ∀ (l : List release) (a : release), (consecutiveDiffs (a :: l)).length = l.length := by
  intro l
  induction l with
  | nil => intro a; rfl
  | cons b l ih => intro a; simp [consecutiveDiffs, ih]

theorem scanDeltas_of_named (r0 : release) (rest : List release) (h : r0.Name ≠ "") :
    scanDeltas (r0 :: rest) =
      consecutiveDiffs (r0 :: rest.filter (fun r => qualifies r.Name)) := by
  unfold scanDeltas
  rw [scan_cons, foldl_scanStep_deltas rest _ h]
  rfl

theorem scanDeltas_of_not_qualifies (r0 : release) (rest : List release)
    (h : ∀ r ∈ rest, qualifies r.Name = false) : scanDeltas (r0 :: rest) = [] := by
  unfold scanDeltas
  rw [scan_cons, foldl_scanStep_deltas_of_not_qualifies rest _ h]

/-! ## Evaluation on concrete interval lists -/

theorem Time.Sub_addDays (t0 : Time) (m n : Int) (h1 : -100000 ≤ n - m) (h2 : n - m ≤ 100000) :
    (t0.addDays n).Sub (t0.addDays m) = (n - m) * Day := by
  have e : t0.ns + n * Day - (t0.ns + m * Day) = (n - m) * Day := by ring
  have hd : Day = 86400000000000 := by decide
  simp only [Time.Sub, Time.addDays]
  rw [e, hd]
  simp only [minDuration, maxDuration]
  rw [if_neg (by omega), if_neg (by omega)]

theorem toDays_mul_Day (n : Int) : toDays (n * Day) = n := by
  have hd : Day = 24 * Hour := rfl
  have hh : ((24 * Hour : Int) : ℚ) ≠ 0 := by
    norm_num [Hour, Minute, Second, Nanosecond]
  unfold toDays
  rw [hd, Int.cast_mul, mul_div_assoc, div_self hh, mul_one]

theorem stats_five_fifteen (owner repo : String) :
    stats owner repo [5 * Day, 15 * Day] =
      some
        { owner := owner
          repo := repo
          dotZeroVersions := 2
          minDaysBetween := 5
          averageDaysBetween := 10
          maxDaysBetween := 15
          standardDeviation := ⟨25⟩ } := by
  have ha : aggregate [5 * Day, 15 * Day] = ⟨5 * Day, 15 * Day, 20 * Day⟩ := by decide
  have hq : Int.tdiv (20 * Day) ((2 : Nat) : Int) = 10 * Day := by decide
  have h5 := toDays_mul_Day 5
  have h10 := toDays_mul_Day 10
  have h15 := toDays_mul_Day 15
  simp only [stats, ha, List.length_cons, List.length_nil, hq, sumSquares, List.foldl_cons,
    List.foldl_nil]
  norm_num [h5, h10, h15]

theorem Time.addDays_zero (t0 : Time) : t0.addDays 0 = t0 := by
  simp [Time.addDays]

theorem scanDeltas_days_0_5_8_20 (n : String) (t0 : Time) (hn : n ≠ "") :
    scanDeltas [⟨n, t0⟩, ⟨"1.0.0", t0.addDays 5⟩, ⟨"1.0.1", t0.addDays 8⟩,
      ⟨"2.0.0", t0.addDays 20⟩] = [5 * Day, 15 * Day] := by
  have q1 : qualifies "1.0.0" = true := by decide
  have q2 : qualifies "1.0.1" = false := by decide
  have q3 : qualifies "2.0.0" = true := by decide
  have s1 := Time.Sub_addDays t0 0 5 (by decide) (by decide)
  have s2 := Time.Sub_addDays t0 5 20 (by decide) (by decide)
  rw [Time.addDays_zero] at s1
  rw [scanDeltas_of_named _ _ hn]
  simp only [List.filter_cons, List.filter_nil, q1, q2, q3, if_true, consecutiveDiffs, s1, s2]
  norm_num

theorem getRepoStats_ok {ε : Type} (fetch : String → String → Except ε (List release))
    (owner repo : String) (rs : List release) (hf : fetch owner repo = .ok rs) :
    getRepoStats fetch owner repo = .ok (stats owner repo (scanDeltas rs)) := by
  simp [getRepoStats, hf]

theorem Sqrt_toReal_of_sq (q : ℚ) (hq : 0 ≤ q) : (⟨q * q⟩ : Sqrt).toReal = (q : ℝ) := by
  have h : (0 : ℝ) ≤ (q : ℝ) := by exact_mod_cast hq
  simp only [Sqrt.toReal, Rat.cast_mul]
  exact Real.sqrt_mul_self h

/-! ## The aggregation of lines 112-137 -/

theorem wrap64_add_wrap64 (a d : Int) : wrap64 (wrap64 a + d) = wrap64 (a + d) := by
  simp only [wrap64]
  omega

theorem wrap64_of_range (x : Int) (h1 : minDuration ≤ x) (h2 : x ≤ maxDuration) :
    wrap64 x = x := by
  have h3 : -(2 ^ 63 : Int) ≤ x := h1
  have h4 : x ≤ (2 ^ 63 - 1 : Int) := h2
  simp only [wrap64]
  omega

theorem foldl_aggStep_sum :
    ∀ (ds : List Duration) (a : Agg),
      wrap64 (ds.foldl aggStep a).sum = wrap64 (a.sum + ds.sum) ∧
      (ds ≠ [] → (ds.foldl aggStep a).sum = wrap64 (a.sum + ds.sum)) := by
  intro ds
  induction ds with
  | nil => intro a; simp
  | cons d ds ih =>
    intro a
    have e : wrap64 (wrap64 (a.sum + d) + ds.sum) = wrap64 (a.sum + (d + ds.sum)) := by
      rw [wrap64_add_wrap64, add_assoc]
    obtain ⟨h1, h2⟩ := ih (aggStep a d)
    have hs : (aggStep a d).sum = wrap64 (a.sum + d) := rfl
    rw [hs, e] at h1
    rw [List.foldl_cons, List.sum_cons]
    refine ⟨h1, fun _ => ?_⟩
    by_cases hds : ds = []
    · subst hds
      simp [aggStep]
    · rw [h2 hds, hs, e]

theorem aggregate_sum (ds : List Duration) : (aggregate ds).sum = wrap64 ds.sum := by
  by_cases h : ds = []
  · subst h; decide
  · have := (foldl_aggStep_sum ds ⟨0, 0, 0⟩).2 h
    simpa [aggregate] using this

theorem aggregate_sum_of_range (ds : List Duration) (h1 : minDuration ≤ ds.sum)
    (h2 : ds.sum ≤ maxDuration) : (aggregate ds).sum = ds.sum := by
  rw [aggregate_sum, wrap64_of_range _ h1 h2]

theorem aggStep_min_of_ne (a : Agg) (d : Duration) (h : a.min ≠ 0) :
    (aggStep a d).min = if d < a.min then d else a.min := by
  simp [aggStep, h]

theorem aggStep_max_of_ne (a : Agg) (d : Duration) (h : a.max ≠ 0) :
    (aggStep a d).max = if d > a.max then d else a.max := by
  simp [aggStep, h]

theorem aggStep_init (d : Duration) : aggStep ⟨0, 0, 0⟩ d = ⟨d, d, wrap64 d⟩ := by
  simp [aggStep]

/-- From a set `min`, over non-zero durations, the loop keeps the least of
`min` and the durations seen. -/
theorem foldl_aggStep_min :
    ∀ (ds : List Duration) (a : Agg), a.min ≠ 0 → (∀ d ∈ ds, d ≠ 0) →
      (ds.foldl aggStep a).min ≤ a.min ∧ (∀ d ∈ ds, (ds.foldl aggStep a).min ≤ d) ∧
      ((ds.foldl aggStep a).min = a.min ∨ (ds.foldl aggStep a).min ∈ ds) := by
  intro ds
  induction ds with
  | nil => intro a _ _; simp
  | cons d ds ih =>
    intro a ha hnz
    have hd : d ≠ 0 := hnz d (List.mem_cons_self _ _)
    have hstep := aggStep_min_of_ne a d ha
    have hne : (aggStep a d).min ≠ 0 := by
      rw [hstep]; split <;> assumption
    obtain ⟨h1, h2, h3⟩ := ih (aggStep a d) hne (fun x hx => hnz x (List.mem_cons_of_mem _ hx))
    rw [List.foldl_cons]
    have hle : (aggStep a d).min ≤ a.min ∧ (aggStep a d).min ≤ d := by
      rw [hstep]; split <;> constructor <;> linarith
    refine ⟨le_trans h1 hle.1, ?_, ?_⟩
    · intro x hx
      rcases List.mem_cons.1 hx with rfl | hx
      · exact le_trans h1 hle.2
      · exact h2 x hx
    · rcases h3 with h3 | h3
      · rw [h3, hstep]
        split
        · exact Or.inr (List.mem_cons_self _ _)
        · exact Or.inl rfl
      · exact Or.inr (List.mem_cons_of_mem _ h3)

/-- From a set `max`, over non-zero durations, the loop keeps the greatest of
`max` and the durations seen. -/
theorem foldl_aggStep_max :
    ∀ (ds : List Duration) (a : Agg), a.max ≠ 0 → (∀ d ∈ ds, d ≠ 0) →
      a.max ≤ (ds.foldl aggStep a).max ∧ (∀ d ∈ ds, d ≤ (ds.foldl aggStep a).max) ∧
      ((ds.foldl aggStep a).max = a.max ∨ (ds.foldl aggStep a).max ∈ ds) := by
  intro ds
  induction ds with
  | nil => intro a _ _; simp
  | cons d ds ih =>
    intro a ha hnz
    have hd : d ≠ 0 := hnz d (List.mem_cons_self _ _)
    have hstep := aggStep_max_of_ne a d ha
    have hne : (aggStep a d).max ≠ 0 := by
      rw [hstep]; split <;> assumption
    obtain ⟨h1, h2, h3⟩ := ih (aggStep a d) hne (fun x hx => hnz x (List.mem_cons_of_mem _ hx))
    rw [List.foldl_cons]
    have hle : a.max ≤ (aggStep a d).max ∧ d ≤ (aggStep a d).max := by
      rw [hstep]; split <;> constructor <;> linarith
    refine ⟨le_trans hle.1 h1, ?_, ?_⟩
    · intro x hx
      rcases List.mem_cons.1 hx with rfl | hx
      · exact le_trans hle.2 h1
      · exact h2 x hx
    · rcases h3 with h3 | h3
      · rw [h3, hstep]
        split
        · exact Or.inr (List.mem_cons_self _ _)
        · exact Or.inl rfl
      · exact Or.inr (List.mem_cons_of_mem _ h3)

/-- On a non-empty list without a zero duration, `min` and `max` are the least
and the greatest element. -/
theorem aggregate_min_max (ds : List Duration) (hne : ds ≠ []) (hnz : ∀ d ∈ ds, d ≠ 0) :
    (aggregate ds).min ∈ ds ∧ (∀ d ∈ ds, (aggregate ds).min ≤ d) ∧
    (aggregate ds).max ∈ ds ∧ (∀ d ∈ ds, d ≤ (aggregate ds).max) := by
  cases ds with
  | nil => exact absurd rfl hne
  | cons d0 ds =>
    have hd0 : d0 ≠ 0 := hnz d0 (List.mem_cons_self _ _)
    have hrest : ∀ d ∈ ds, d ≠ 0 := fun x hx => hnz x (List.mem_cons_of_mem _ hx)
    have e : aggregate (d0 :: ds) = ds.foldl aggStep ⟨d0, d0, wrap64 d0⟩ := by
      simp only [aggregate, List.foldl_cons, aggStep_init]
    obtain ⟨m1, m2, m3⟩ := foldl_aggStep_min ds ⟨d0, d0, wrap64 d0⟩ hd0 hrest
    obtain ⟨x1, x2, x3⟩ := foldl_aggStep_max ds ⟨d0, d0, wrap64 d0⟩ hd0 hrest
    rw [e]
    refine ⟨?_, ?_, ?_, ?_⟩
    · rcases m3 with h | h
      · rw [h]; exact List.mem_cons_self _ _
      · exact List.mem_cons_of_mem _ h
    · intro x hx
      rcases List.mem_cons.1 hx with rfl | hx
      · exact m1
      · exact m2 x hx
    · rcases x3 with h | h
      · rw [h]; exact List.mem_cons_self _ _
      · exact List.mem_cons_of_mem _ h
    · intro x hx
      rcases List.mem_cons.1 hx with rfl | hx
      · exact x1
      · exact x2 x hx

theorem length_mul_le_sum (m : Int) :
    ∀ ds : List Int, (∀ d ∈ ds, m ≤ d) → (ds.length : Int) * m ≤ ds.sum := by
  intro ds
  induction ds with
  | nil => intro _; simp
  | cons d ds ih =>
    intro h
    have h1 := h d (List.mem_cons_self _ _)
    have h2 := ih (fun x hx => h x (List.mem_cons_of_mem _ hx))
    simp only [List.length_cons, List.sum_cons, Nat.cast_add, Nat.cast_one]
    linarith

theorem sum_le_length_mul (m : Int) :
    ∀ ds : List Int, (∀ d ∈ ds, d ≤ m) → ds.sum ≤ (ds.length : Int) * m := by
  intro ds
  induction ds with
  | nil => intro _; simp
  | cons d ds ih =>
    intro h
    have h1 := h d (List.mem_cons_self _ _)
    have h2 := ih (fun x hx => h x (List.mem_cons_of_mem _ hx))
    simp only [List.length_cons, List.sum_cons, Nat.cast_add, Nat.cast_one]
    linarith

/-- The truncated quotient of a sum of `n` terms lies between any two integer
bounds of the terms. -/
theorem tdiv_bounds (s m M n : Int) (hn : 0 < n) (h1 : n * m ≤ s) (h2 : s ≤ n * M) :
    m ≤ Int.tdiv s n ∧ Int.tdiv s n ≤ M := by
  by_cases hs : 0 ≤ s
  · rw [Int.tdiv_eq_ediv hs (le_of_lt hn)]
    exact ⟨Int.le_ediv_of_mul_le hn (by linarith), Int.ediv_le_of_le_mul hn (by linarith)⟩
  · have hs1 : 0 ≤ -s := by omega
    have e : Int.tdiv s n = -((-s) / n) := by
      rw [← Int.tdiv_eq_ediv hs1 (le_of_lt hn), Int.neg_tdiv, neg_neg]
    have a1 : (-s) / n ≤ -m := Int.ediv_le_of_le_mul hn (by linarith)
    have a2 : -M ≤ (-s) / n := Int.le_ediv_of_mul_le hn (by linarith)
    rw [e]
    constructor <;> omega

/-! ## The record of lines 137-157 -/

theorem stats_nil (owner repo : String) : stats owner repo [] = none := rfl

theorem stats_of_ne_nil (owner repo : String) (ds : List Duration) (h : ds ≠ []) :
    stats owner repo ds =
      some
        { owner := owner
          repo := repo
          dotZeroVersions := ds.length
          minDaysBetween := toDays (aggregate ds).min
          averageDaysBetween := toDays (Int.tdiv (aggregate ds).sum (ds.length : Int))
          maxDaysBetween := toDays (aggregate ds).max
          standardDeviation :=
            ⟨sumSquares (toDays (Int.tdiv (aggregate ds).sum (ds.length : Int))) ds /
              (ds.length : ℚ)⟩ } := by
  have hl : ds.length ≠ 0 := fun e => h (List.length_eq_zero.1 e)
  simp [stats, hl]

theorem toDays_eq (d : Duration) : toDays d = (d : ℚ) / 86400000000000 := by
  simp only [toDays, Hour, Minute, Second, Nanosecond]
  norm_num

theorem toDays_zero : toDays 0 = 0 := by
  simp [toDays]

theorem toDays_le_toDays {a b : Duration} (h : a ≤ b) : toDays a ≤ toDays b := by
  have hab : (a : ℚ) ≤ (b : ℚ) := by exact_mod_cast h
  rw [toDays_eq, toDays_eq]
  exact div_le_div_of_nonneg_right hab (by norm_num)

theorem foldl_sumSquares_cast (a : ℚ) :
    ∀ (ds : List Duration) (t : ℚ),
      ((ds.foldl (fun t d => t + (toDays d - a) * (toDays d - a)) t : ℚ) : ℝ) =
        (t : ℝ) + (ds.map (fun d => ((toDays d : ℝ) - (a : ℝ)) ^ 2)).sum := by
  intro ds
  induction ds with
  | nil => intro t; simp
  | cons d ds ih =>
    intro t
    rw [List.foldl_cons, ih, List.map_cons, List.sum_cons]
    push_cast
    ring

theorem sumSquares_cast (a : ℚ) (ds : List Duration) :
    ((sumSquares a ds : ℚ) : ℝ) =
      (ds.map (fun d => ((toDays d : ℝ) - (a : ℝ)) ^ 2)).sum := by
  unfold sumSquares
  rw [foldl_sumSquares_cast]
  simp

theorem sumSquares_cast_nonneg (a : ℚ) (ds : List Duration) :
    (0 : ℝ) ≤ ((sumSquares a ds : ℚ) : ℝ) := by
  rw [sumSquares_cast]
  apply List.sum_nonneg
  intro x hx
  obtain ⟨d, _, rfl⟩ := List.mem_map.1 hx
  exact sq_nonneg _

theorem Sqrt_toReal_nonneg (s : Sqrt) : 0 ≤ s.toReal :=
  Real.sqrt_nonneg _

theorem stats_ten_thirty (owner repo : String) :
    stats owner repo [10 * Day, 30 * Day] =
      some
        { owner := owner
          repo := repo
          dotZeroVersions := 2
          minDaysBetween := 10
          averageDaysBetween := 20
          maxDaysBetween := 30
          standardDeviation := ⟨100⟩ } := by
  have ha : aggregate [10 * Day, 30 * Day] = ⟨10 * Day, 30 * Day, 40 * Day⟩ := by decide
  have hq : Int.tdiv (40 * Day) ((2 : Nat) : Int) = 20 * Day := by decide
  have h10 := toDays_mul_Day 10
  have h20 := toDays_mul_Day 20
  have h30 := toDays_mul_Day 30
  simp only [stats, ha, List.length_cons, List.length_nil, hq, sumSquares, List.foldl_cons,
    List.foldl_nil]
  norm_num [h10, h20, h30]

theorem scanDeltas_days_0_10_40 (n0 n1 n2 : String) (t0 : Time)
    (h0 : qualifies n0 = true) (h1 : qualifies n1 = true) (h2 : qualifies n2 = true) :
    scanDeltas [⟨n0, t0⟩, ⟨n1, t0.addDays 10⟩, ⟨n2, t0.addDays 40⟩] =
      [10 * Day, 30 * Day] := by
  have s1 := Time.Sub_addDays t0 0 10 (by decide) (by decide)
  have s2 := Time.Sub_addDays t0 10 40 (by decide) (by decide)
  rw [Time.addDays_zero] at s1
  rw [scanDeltas_of_named _ _ (qualifies_imp_ne_empty _ h0)]
  simp only [List.filter_cons, List.filter_nil, h1, h2, if_true, consecutiveDiffs, s1, s2]
  norm_num

/-! ## The identifiers of `main` -/

theorem Contains_iff (s : String) (sep : Char) : Contains s sep = true ↔ sep ∈ s.data := by
  simp [Contains]

theorem Contains_eq_false_iff (s : String) (sep : Char) :
    Contains s sep = false ↔ sep ∉ s.data := by
  rw [← Contains_iff]
  simp

theorem splitChars_length_of_mem (sep : Char) :
    ∀ cs : List Char, sep ∈ cs → 2 ≤ (splitChars sep cs).length := by
  intro cs
  induction cs with
  | nil => intro h; simp at h
  | cons c cs ih =>
    intro h
    rw [splitChars]
    by_cases hc : c = sep
    · rw [if_pos hc, List.length_cons]
      have := List.length_pos.2 (splitChars_ne_nil sep cs)
      omega
    · rw [if_neg hc]
      have hmem : sep ∈ cs := by
        rcases List.mem_cons.1 h with e | e
        · exact absurd e.symm hc
        · exact e
      have := ih hmem
      cases hs : splitChars sep cs with
      | nil => rw [hs] at this; simp at this
      | cons q qs => rw [hs] at this; simpa using this

theorem Split_length_of_Contains (s : String) (sep : Char) (h : Contains s sep = true) :
    2 ≤ (Split s sep).length := by
  rw [Split_length]
  exact splitChars_length_of_mem sep _ ((Contains_iff s sep).1 h)

theorem index_of_lt (xs : List String) (i : Nat) (h : i < xs.length) :
    index xs i = .ok (xs.get ⟨i, h⟩) := by
  simp [index, List.getElem?_eq_getElem h]

theorem Split_slash (o n : String) (ho : Contains o '/' = false)
    (hn : Contains n '/' = false) : Split (o ++ "/" ++ n) '/' = [o, n] := by
  have e : (o ++ "/" ++ n).data = o.data ++ '/' :: n.data := by
    simp [String.data_append]
  unfold Split
  rw [e, splitChars_append_sep '/' _ _ ((Contains_eq_false_iff o '/').1 ho),
    splitChars_of_not_mem '/' _ ((Contains_eq_false_iff n '/').1 hn)]
  rfl

theorem Contains_slash (o n : String) : Contains (o ++ "/" ++ n) '/' = true := by
  rw [Contains_iff]
  simp [String.data_append]

theorem resolve_slash (d o n : String) (ho : Contains o '/' = false)
    (hn : Contains n '/' = false) : resolve d (o ++ "/" ++ n) = .ok (some (o, n)) := by
  unfold resolve
  rw [if_pos (Contains_slash o n)]
  simp only [Split_slash o n ho hn]
  rfl

theorem resolve_of_no_slash (d id : String) (hid : Contains id '/' = false) :
    resolve d id = if d = "" then .ok none else .ok (some (d, id)) := by
  unfold resolve
  simp [hid]

/-- The lookup of `parts[0]` and `parts[1]` in `main` succeeds on every
identifier. -/
theorem resolve_ok (d id : String) : ∃ r, resolve d id = .ok r := by
  by_cases h : Contains id '/' = true
  · have hl := Split_length_of_Contains id '/' h
    unfold resolve
    rw [if_pos h]
    have h0 := index_of_lt (Split id '/') 0 (by omega)
    have h1 := index_of_lt (Split id '/') 1 (by omega)
    simp only [h0, h1]
    exact ⟨_, rfl⟩
  · have h1 : Contains id '/' = false := by simpa using h
    rw [resolve_of_no_slash d id h1]
    split <;> exact ⟨_, rfl⟩

/-! ## The loop of `main` -/

theorem mainStep_ok {ε : Type} (fetch : String → String → Except ε (List release))
    (owner : String) (st : MainState ε) (repo : String) :
    mainStep fetch owner st repo =
      .ok { stats := st.stats ++ (rowOf fetch owner repo).toList
            log := st.log ++ logOf fetch owner repo } := by
  obtain ⟨r, hr⟩ := resolve_ok owner repo
  unfold mainStep rowOf logOf
  rw [hr]
  rcases r with _ | ⟨o, n⟩
  · simp
  · simp only
    generalize getRepoStats fetch o n = g
    rcases g with err | (_ | s) <;> simp

theorem toList_append_filterMap {α β : Type} (f : α → Option β) (a : α) (l : List α) :
    (f a).toList ++ l.filterMap f = (a :: l).filterMap f := by
  rw [List.filterMap_cons]
  cases f a <;> simp

theorem mainLoop_ok {ε : Type} (fetch : String → String → Except ε (List release))
    (owner : String) :
    ∀ (repos : List String) (st : MainState ε),
      mainLoop fetch owner repos st =
        .ok { stats := st.stats ++ repos.filterMap (rowOf fetch owner)
              log := st.log ++ repos.flatMap (logOf fetch owner) } := by
  intro repos
  induction repos with
  | nil => intro st; simp [mainLoop]
  | cons repo rest ih =>
    intro st
    rw [mainLoop, mainStep_ok]
    simp only [ih, List.append_assoc, toList_append_filterMap, List.flatMap_cons]

/-! ## Leading releases of empty name -/

theorem scanStep_of_unnamed (st : ScanState) (r : release) (h : st.prev.Name = "") :
    scanStep st r = { prev := r, deltas := st.deltas } := by
  simp [scanStep, h]

theorem foldl_scanStep_deltas_unnamed :
    ∀ (rs : List release) (r s : release) (ds : List Duration), r.Name = "" → s.Name = "" →
      (rs.foldl scanStep { prev := r, deltas := ds }).deltas =
        (rs.foldl scanStep { prev := s, deltas := ds }).deltas := by
  intro rs r s ds hr hs
  cases rs with
  | nil => rfl
  | cons x rest =>
    rw [List.foldl_cons, List.foldl_cons, scanStep_of_unnamed _ _ hr,
      scanStep_of_unnamed _ _ hs]

theorem dropEmptyNamed_cons_of_unnamed (r : release) (rs : List release) (h : r.Name = "") :
    dropEmptyNamed (r :: rs) = dropEmptyNamed rs := by
  simp [dropEmptyNamed, List.dropWhile_cons, h]

theorem dropEmptyNamed_cons_of_named (r : release) (rs : List release) (h : r.Name ≠ "") :
    dropEmptyNamed (r :: rs) = r :: rs := by
  simp [dropEmptyNamed, List.dropWhile_cons, h]

theorem scanDeltas_dropEmptyNamed :
    ∀ rs : List release, scanDeltas rs = scanDeltas (dropEmptyNamed rs) := by
  intro rs
  induction rs with
  | nil => rfl
  | cons r rs ih =>
    by_cases h : r.Name = ""
    · rw [dropEmptyNamed_cons_of_unnamed r rs h, ← ih]
      unfold scanDeltas
      rw [scan_cons]
      exact foldl_scanStep_deltas_unnamed rs r ⟨"", ⟨0⟩⟩ [] h rfl
    · rw [dropEmptyNamed_cons_of_named r rs h]

theorem dropEmptyNamed_head_named :
    ∀ (rs : List release) (r0 : release) (rest : List release),
      dropEmptyNamed rs = r0 :: rest → r0.Name ≠ "" := by
  intro rs
  induction rs with
  | nil => intro r0 rest h; simp [dropEmptyNamed] at h
  | cons r rs ih =>
    intro r0 rest h
    by_cases hr : r.Name = ""
    · rw [dropEmptyNamed_cons_of_unnamed r rs hr] at h
      exact ih r0 rest h
    · rw [dropEmptyNamed_cons_of_named r rs hr] at h
      simp only [List.cons.injEq] at h
      rw [← h.1]
      exact hr

theorem dropEmptyNamed_leading (rs : List release) :
    ∃ pre : List release, rs = pre ++ dropEmptyNamed rs ∧ ∀ r ∈ pre, r.Name = "" := by
  refine ⟨rs.takeWhile (fun r => r.Name == ""), ?_, ?_⟩
  · exact (List.takeWhile_append_dropWhile _ rs).symm
  · intro r hr
    have := List.mem_takeWhile_imp hr
    simpa using this

/-! ## Telescoping of the intervals -/

theorem Time.Sub_of_range (t u : Time) (h1 : minDuration ≤ t.ns - u.ns)
    (h2 : t.ns - u.ns ≤ maxDuration) : t.Sub u = t.ns - u.ns := by
  simp only [Time.Sub]
  rw [if_neg (not_lt.2 h1), if_neg (not_lt.2 h2)]

theorem consecutiveDiffs_sum :
    ∀ (l : List release) (a : release), noSaturation (a :: l) = true →
      (consecutiveDiffs (a :: l)).sum =
        (l.getLastD a).PublishedAt.ns - a.PublishedAt.ns := by
  intro l
  induction l with
  | nil => intro a _; simp [consecutiveDiffs]
  | cons b l ih =>
    intro a h
    simp only [noSaturation, Bool.and_eq_true, decide_eq_true_eq] at h
    obtain ⟨⟨h1, h2⟩, h3⟩ := h
    rw [consecutiveDiffs, List.sum_cons, ih b h3, Time.Sub_of_range _ _ h1 h2,
      List.getLastD_cons]
    ring

/-! ## Equal intervals -/

theorem aggStep_same (d s : Int) : aggStep ⟨d, d, s⟩ d = ⟨d, d, wrap64 (s + d)⟩ := by
  simp [aggStep]

theorem foldl_aggStep_replicate (d : Int) :
    ∀ (k : Nat) (s : Int),
      ((List.replicate k d).foldl aggStep ⟨d, d, s⟩).min = d ∧
      ((List.replicate k d).foldl aggStep ⟨d, d, s⟩).max = d := by
  intro k
  induction k with
  | zero => intro s; simp
  | succ k ih =>
    intro s
    rw [List.replicate_succ, List.foldl_cons, aggStep_same]
    exact ih _

theorem sum_replicate_int (d : Int) : ∀ n : Nat, (List.replicate n d).sum = (n : Int) * d := by
  intro n
  induction n with
  | zero => simp
  | succ n ih =>
    rw [List.replicate_succ, List.sum_cons, ih]
    push_cast
    ring

theorem aggregate_replicate (d : Int) (n : Nat) (hn : 0 < n) :
    aggregate (List.replicate n d) = ⟨d, d, wrap64 ((n : Int) * d)⟩ := by
  have hs := aggregate_sum (List.replicate n d)
  rw [sum_replicate_int] at hs
  obtain ⟨k, rfl⟩ : ∃ k, n = k + 1 := ⟨n - 1, by omega⟩
  have hm : (aggregate (List.replicate (k + 1) d)).min = d ∧
      (aggregate (List.replicate (k + 1) d)).max = d := by
    unfold aggregate
    rw [List.replicate_succ, List.foldl_cons, aggStep_init]
    exact foldl_aggStep_replicate d k _
  cases ha : aggregate (List.replicate (k + 1) d) with
  | mk mn mx sm =>
    rw [ha] at hm hs
    simp only at hm hs
    rw [hm.1, hm.2, hs]

theorem sumSquares_replicate (d : Int) :
    ∀ n : Nat, sumSquares (toDays d) (List.replicate n d) = 0 := by
  intro n
  unfold sumSquares
  induction n with
  | zero => rfl
  | succ n ih =>
    rw [List.replicate_succ, List.foldl_cons]
    simpa using ih

theorem stats_replicate (owner repo : String) (d : Int) (n : Nat) (hn : 0 < n)
    (h1 : minDuration ≤ (n : Int) * d) (h2 : (n : Int) * d ≤ maxDuration) :
    stats owner repo (List.replicate n d) =
      some
        { owner := owner
          repo := repo
          dotZeroVersions := n
          minDaysBetween := toDays d
          averageDaysBetween := toDays d
          maxDaysBetween := toDays d
          standardDeviation := ⟨0⟩ } := by
  have hne : List.replicate n d ≠ [] := by
    intro e
    have := congrArg List.length e
    simp at this
    omega
  have hn0 : (n : Int) ≠ 0 := by omega
  have hq : Int.tdiv ((n : Int) * d) (n : Int) = d := Int.mul_tdiv_cancel_left d hn0
  rw [stats_of_ne_nil owner repo _ hne, aggregate_replicate d n hn,
    wrap64_of_range _ h1 h2]
  simp only [List.length_replicate, hq, sumSquares_replicate, zero_div]

/-! ## Pagination -/

theorem fetchLoop_chain {ε : Type} (query : String → String → Option String → Except ε Page)
    (owner repo : String) :
    ∀ (pages : List Page) (after : Option String) (acc : List release) (fuel : Nat),
      PageChain query owner repo after pages → pages.length ≤ fuel →
      fetchLoop query owner repo fuel after acc =
        some (.ok (acc ++ pages.flatMap Page.Nodes)) := by
  intro pages
  induction pages with
  | nil => intro after acc fuel h _; exact absurd h (by simp [PageChain])
  | cons p ps ih =>
    intro after acc fuel h hfuel
    obtain ⟨f, rfl⟩ : ∃ f, fuel = f + 1 := ⟨fuel - 1, by simp at hfuel; omega⟩
    cases ps with
    | nil =>
      obtain ⟨hq, hlast⟩ := h
      simp [fetchLoop, hq, hlast]
    | cons p1 ps =>
      obtain ⟨hq, hnext, hrest⟩ := h
      have hf : (p1 :: ps).length ≤ f := by
        simp only [List.length_cons] at hfuel ⊢
        omega
      simp only [fetchLoop, hq, hnext, Bool.not_true, Bool.false_eq_true, if_false]
      rw [ih (some p.EndCursor) (acc ++ p.Nodes) f hrest hf]
      simp [List.flatMap_cons]

theorem fetchLoop_failing {ε : Type}
    (query : String → String → Option String → Except ε Page) (owner repo : String)
    (err : ε) :
    ∀ (pages : List Page) (after : Option String) (acc : List release) (fuel : Nat),
      FailingChain query owner repo err after pages → pages.length + 1 ≤ fuel →
      fetchLoop query owner repo fuel after acc = some (.error err) := by
  intro pages
  induction pages with
  | nil =>
    intro after acc fuel h hfuel
    obtain ⟨f, rfl⟩ : ∃ f, fuel = f + 1 := ⟨fuel - 1, by simp at hfuel; omega⟩
    have hq : query owner repo after = .error err := h
    simp [fetchLoop, hq]
  | cons p ps ih =>
    intro after acc fuel h hfuel
    obtain ⟨f, rfl⟩ : ∃ f, fuel = f + 1 := ⟨fuel - 1, by simp at hfuel; omega⟩
    obtain ⟨hq, hnext, hrest⟩ := h
    have hf : ps.length + 1 ≤ f := by
      simp only [List.length_cons] at hfuel
      omega
    simp only [fetchLoop, hq, hnext, Bool.not_true, Bool.false_eq_true, if_false]
    exact ih (some p.EndCursor) (acc ++ p.Nodes) f hrest hf

/-! ## Index checks of the scan -/

theorem scanStepChecked_ok (st : ScanState) (r : release) :
    scanStepChecked st r = .ok (scanStep st r) := by
  unfold scanStepChecked scanStep
  by_cases h : st.prev.Name = ""
  · simp [h]
  · simp only [h, if_false]
    generalize Split r.Name '.' = l
    rcases l with _ | ⟨a, _ | ⟨b, _ | ⟨c, l⟩⟩⟩ <;> simp [index]
    have hlen : ¬ (l.length + 1 + 1 + 1 < 3) := by omega
    by_cases hc : c = "0" <;> simp [hc, hlen]

theorem scanChecked_ok :
    ∀ (rs : List release) (st : ScanState), scanChecked rs st = .ok (rs.foldl scanStep st) := by
  intro rs
  induction rs with
  | nil => intro st; rfl
  | cons r rs ih =>
    intro st
    rw [scanChecked, scanStepChecked_ok]
    exact ih _

/-! ## Claims -/

/-- C2: a release name passes the test of `getRepoStats` if and only if its
split on "." has at least 3 components and the third one is exactly "0";
equivalently, the name is two dot-free components, each followed by a dot, then
"0", then the end of the name or a further dot. "2.0.0" and "2.10.0" pass;
"2.0.0-beta", "2.0" and "2.0.00" do not. -/
theorem qualifies_spec (s : String) :
    (qualifies s = true ↔
      3 ≤ (Split s '.').length ∧ (Split s '.')[2]? = some "0") ∧
    (qualifies s = true ↔
      ∃ a b t : List Char, '.' ∉ a ∧ '.' ∉ b ∧ (t = [] ∨ ∃ u, t = '.' :: u) ∧
        s.data = a ++ '.' :: (b ++ '.' :: '0' :: t)) ∧
    qualifies "2.0.0" = true ∧ qualifies "2.10.0" = true ∧
    qualifies "2.0.0-beta" = false ∧ qualifies "2.0" = false ∧
    qualifies "2.0.00" = false :=
  ⟨qualifies_iff_parts s, qualifies_iff_shape s, by decide, by decide, by decide,
    by decide, by decide⟩

/-- C1 (as amended): for every release list `r0 :: rest` whose first release
has a non-empty name (any other names, any publish times), the interval list
collected by the scan of `getRepoStats` is the list of consecutive publish-time
differences (`Time.Sub`) along `r0 :: q`, where `q` is `rest` filtered, in
order, to the qualifying releases; the anchor at the end is the last release of
`r0 :: q`. -/
theorem scanDeltas_eq_consecutiveDiffs (r0 : release) (rest : List release)
    (h : r0.Name ≠ "") :
    scanDeltas (r0 :: rest) =
      consecutiveDiffs (r0 :: rest.filter (fun r => qualifies r.Name)) ∧
    (scan (r0 :: rest)).prev = (rest.filter (fun r => qualifies r.Name)).getLastD r0 := by
  refine ⟨scanDeltas_of_named r0 rest h, ?_⟩
  rw [scan_cons, foldl_scanStep_prev rest _ h]

theorem scanDeltas_eq_consecutiveDiffs_witness :
    (⟨"0.9.1", ⟨0⟩⟩ : release).Name ≠ "" ∧
    scanDeltas [⟨"0.9.1", ⟨0⟩⟩, ⟨"1.0.0", ⟨5⟩⟩, ⟨"1.0.1", ⟨7⟩⟩, ⟨"2.0.0", ⟨10⟩⟩] =
      consecutiveDiffs ((⟨"0.9.1", ⟨0⟩⟩ : release) ::
        [(⟨"1.0.0", ⟨5⟩⟩ : release), ⟨"1.0.1", ⟨7⟩⟩, ⟨"2.0.0", ⟨10⟩⟩].filter
          (fun r => qualifies r.Name)) :=
  ⟨by decide, (scanDeltas_eq_consecutiveDiffs _ _ (by decide)).1⟩

/-- C1 fails as stated for a first release with an empty name: that release
does not stay the anchor, the second release replaces it without being tested,
and one interval is collected where the claim has two. -/
theorem scanDeltas_empty_name_counterexample :
    scanDeltas [⟨"", ⟨0⟩⟩, ⟨"1.0.0", ⟨5⟩⟩, ⟨"2.0.0", ⟨10⟩⟩] = [5] ∧
    consecutiveDiffs ((⟨"", ⟨0⟩⟩ : release) ::
        [(⟨"1.0.0", ⟨5⟩⟩ : release), ⟨"2.0.0", ⟨10⟩⟩].filter
          (fun r => qualifies r.Name)) = [5, 5] ∧
    scanDeltas [⟨"", ⟨0⟩⟩, ⟨"1.0.0", ⟨5⟩⟩, ⟨"2.0.0", ⟨10⟩⟩] ≠
      consecutiveDiffs ((⟨"", ⟨0⟩⟩ : release) ::
        [(⟨"1.0.0", ⟨5⟩⟩ : release), ⟨"2.0.0", ⟨10⟩⟩].filter
          (fun r => qualifies r.Name)) := by
  decide

/-- C3 (as amended): for the releases published at days 0, 5, 8 and 20, the
first with a non-empty name and the later ones named "1.0.0", "1.0.1" and
"2.0.0", `getRepoStats` collects two intervals, 5 days (seed to "1.0.0", which
qualifies and becomes the anchor) and 15 days ("1.0.0" to "2.0.0"), and returns
dotZeroVersions = 2, minDaysBetween = 5, averageDaysBetween = 10,
maxDaysBetween = 15 and standardDeviation = 5. -/
theorem getRepoStats_days_0_5_8_20 {ε : Type}
    (fetch : String → String → Except ε (List release)) (owner repo n : String) (t0 : Time)
    (hn : n ≠ "")
    (hf : fetch owner repo = .ok [⟨n, t0⟩, ⟨"1.0.0", t0.addDays 5⟩, ⟨"1.0.1", t0.addDays 8⟩,
      ⟨"2.0.0", t0.addDays 20⟩]) :
    scanDeltas [⟨n, t0⟩, ⟨"1.0.0", t0.addDays 5⟩, ⟨"1.0.1", t0.addDays 8⟩,
      ⟨"2.0.0", t0.addDays 20⟩] = [5 * Day, 15 * Day] ∧
    ∃ s, getRepoStats fetch owner repo = .ok (some s) ∧
      s.owner = owner ∧ s.repo = repo ∧ s.dotZeroVersions = 2 ∧
      s.minDaysBetween = 5 ∧ s.averageDaysBetween = 10 ∧ s.maxDaysBetween = 15 ∧
      s.standardDeviation.toReal = 5 := by
  refine ⟨scanDeltas_days_0_5_8_20 n t0 hn, ?_⟩
  rw [getRepoStats_ok fetch owner repo _ hf, scanDeltas_days_0_5_8_20 n t0 hn,
    stats_five_fifteen]
  refine ⟨_, rfl, rfl, rfl, rfl, rfl, rfl, rfl, ?_⟩
  have h := Sqrt_toReal_of_sq 5 (by norm_num)
  norm_num at h
  exact h

theorem getRepoStats_days_0_5_8_20_witness :
    ("0.9.1" : String) ≠ "" ∧
    ∃ s, getRepoStats
        (fun _ _ => (Except.ok [⟨"0.9.1", ⟨0⟩⟩, ⟨"1.0.0", Time.addDays ⟨0⟩ 5⟩,
          ⟨"1.0.1", Time.addDays ⟨0⟩ 8⟩, ⟨"2.0.0", Time.addDays ⟨0⟩ 20⟩] :
            Except String (List release))) "octo" "widget" = .ok (some s) ∧
      s.owner = "octo" ∧ s.repo = "widget" ∧ s.dotZeroVersions = 2 ∧
      s.minDaysBetween = 5 ∧ s.averageDaysBetween = 10 ∧ s.maxDaysBetween = 15 ∧
      s.standardDeviation.toReal = 5 :=
  ⟨by decide,
    (getRepoStats_days_0_5_8_20 (fun _ _ => Except.ok _) "octo" "widget" "0.9.1" ⟨0⟩
      (by decide) rfl).2⟩

/-- C3 fails as stated: on the releases "0.9.1", "1.0.0", "1.0.1", "2.0.0"
published at days 0, 5, 8 and 20, the release "1.0.0" qualifies, so the
intervals are 5 and 15 days and not one interval of 20 days, and the record has
dotZeroVersions = 2. -/
theorem getRepoStats_days_0_5_8_20_counterexample :
    scanDeltas [⟨"0.9.1", ⟨0⟩⟩, ⟨"1.0.0", Time.addDays ⟨0⟩ 5⟩,
      ⟨"1.0.1", Time.addDays ⟨0⟩ 8⟩, ⟨"2.0.0", Time.addDays ⟨0⟩ 20⟩] ≠ [20 * Day] ∧
    ¬ ∃ s, getRepoStats
        (fun _ _ => (Except.ok [⟨"0.9.1", ⟨0⟩⟩, ⟨"1.0.0", Time.addDays ⟨0⟩ 5⟩,
          ⟨"1.0.1", Time.addDays ⟨0⟩ 8⟩, ⟨"2.0.0", Time.addDays ⟨0⟩ 20⟩] :
            Except String (List release))) "octo" "widget" = .ok (some s) ∧
      s.dotZeroVersions = 1 ∧ s.minDaysBetween = 20 ∧ s.averageDaysBetween = 20 ∧
      s.maxDaysBetween = 20 ∧ s.standardDeviation.toReal = 0 := by
  have hd := scanDeltas_days_0_5_8_20 "0.9.1" ⟨0⟩ (by decide)
  refine ⟨by rw [hd]; decide, ?_⟩
  rintro ⟨s, hs, hcount, -⟩
  rw [getRepoStats_ok _ "octo" "widget" _ rfl, hd, stats_five_fifteen] at hs
  simp only [Except.ok.injEq, Option.some.injEq] at hs
  rw [← hs] at hcount
  exact absurd hcount (by decide)

/-- C4, evaluated where it fails: for the releases "0.9.1" and "1.0.0" published
at the same instant and "2.0.0" five days later, the intervals are 0 and 5 days,
whose minimum is 0, and `getRepoStats` reports minDaysBetween = 5: the zero
duration is taken for an unset `min` and overwritten. -/
theorem getRepoStats_min_zero_interval :
    scanDeltas [⟨"0.9.1", ⟨0⟩⟩, ⟨"1.0.0", ⟨0⟩⟩, ⟨"2.0.0", Time.addDays ⟨0⟩ 5⟩] = [0, 5 * Day] ∧
    (0 : Duration) ∈ [0, 5 * Day] ∧ (∀ d ∈ [0, 5 * Day], (0 : Duration) ≤ d) ∧
    (aggregate [0, 5 * Day]).min = 5 * Day ∧
    ∃ s, getRepoStats
        (fun _ _ => (Except.ok [⟨"0.9.1", ⟨0⟩⟩, ⟨"1.0.0", ⟨0⟩⟩,
          ⟨"2.0.0", Time.addDays ⟨0⟩ 5⟩] : Except String (List release)))
        "octo" "widget" = .ok (some s) ∧
      s.minDaysBetween = 5 ∧ s.minDaysBetween ≠ toDays 0 := by
  have hd : scanDeltas [⟨"0.9.1", ⟨0⟩⟩, ⟨"1.0.0", ⟨0⟩⟩, ⟨"2.0.0", Time.addDays ⟨0⟩ 5⟩] =
      [0, 5 * Day] := by decide
  have ha : (aggregate [0, 5 * Day]).min = 5 * Day := by decide
  refine ⟨hd, by decide, by decide, ha, ?_⟩
  rw [getRepoStats_ok _ "octo" "widget" _ rfl, hd, stats_of_ne_nil _ _ _ (by decide)]
  refine ⟨_, rfl, ?_, ?_⟩
  · simp only [ha, toDays_mul_Day]; norm_num
  · simp only [ha, toDays_mul_Day, toDays_zero]; norm_num

/-- C5, evaluated where it fails: for the releases "0.9.1" and "1.0.0" published
at the same instant and "2.0.0" published five days before them, the intervals
are 0 and -5 days, whose maximum is 0, and `getRepoStats` reports
maxDaysBetween = -5: the zero duration is taken for an unset `max` and
overwritten. -/
theorem getRepoStats_max_zero_interval :
    scanDeltas [⟨"0.9.1", Time.addDays ⟨0⟩ 5⟩, ⟨"1.0.0", Time.addDays ⟨0⟩ 5⟩,
      ⟨"2.0.0", ⟨0⟩⟩] = [0, -5 * Day] ∧
    (0 : Duration) ∈ [0, -5 * Day] ∧ (∀ d ∈ [0, -5 * Day], d ≤ (0 : Duration)) ∧
    (aggregate [0, -5 * Day]).max = -5 * Day ∧
    ∃ s, getRepoStats
        (fun _ _ => (Except.ok [⟨"0.9.1", Time.addDays ⟨0⟩ 5⟩, ⟨"1.0.0", Time.addDays ⟨0⟩ 5⟩,
          ⟨"2.0.0", ⟨0⟩⟩] : Except String (List release)))
        "octo" "widget" = .ok (some s) ∧
      s.maxDaysBetween = -5 ∧ s.maxDaysBetween ≠ toDays 0 := by
  have hd : scanDeltas [⟨"0.9.1", Time.addDays ⟨0⟩ 5⟩, ⟨"1.0.0", Time.addDays ⟨0⟩ 5⟩,
      ⟨"2.0.0", ⟨0⟩⟩] = [0, -5 * Day] := by decide
  have ha : (aggregate [0, -5 * Day]).max = -5 * Day := by decide
  refine ⟨hd, by decide, by decide, ha, ?_⟩
  rw [getRepoStats_ok _ "octo" "widget" _ rfl, hd, stats_of_ne_nil _ _ _ (by decide)]
  refine ⟨_, rfl, ?_, ?_⟩
  · simp only [ha, toDays_mul_Day]; norm_num
  · simp only [ha, toDays_mul_Day, toDays_zero]; norm_num

/-- C6 (as amended): every record `getRepoStats` returns has
standardDeviation >= 0. For every release list whose interval list is non-empty
a record is returned, and when the list has no zero duration and a sum within
`int64`, the record has minDaysBetween <= averageDaysBetween <= maxDaysBetween
(already on the integer durations, min <= avg <= max). -/
theorem getRepoStats_min_le_avg_le_max {ε : Type}
    (fetch : String → String → Except ε (List release)) (owner repo : String)
    (rs : List release) (hf : fetch owner repo = .ok rs) :
    (∀ s, getRepoStats fetch owner repo = .ok (some s) → 0 ≤ s.standardDeviation.toReal) ∧
    (scanDeltas rs ≠ [] →
      ∃ s, getRepoStats fetch owner repo = .ok (some s) ∧
        0 ≤ s.standardDeviation.toReal ∧
        ((∀ d ∈ scanDeltas rs, d ≠ 0) →
          minDuration ≤ (scanDeltas rs).sum → (scanDeltas rs).sum ≤ maxDuration →
          ((aggregate (scanDeltas rs)).min ≤
              Int.tdiv (aggregate (scanDeltas rs)).sum ((scanDeltas rs).length : Int) ∧
            Int.tdiv (aggregate (scanDeltas rs)).sum ((scanDeltas rs).length : Int) ≤
              (aggregate (scanDeltas rs)).max) ∧
          s.minDaysBetween ≤ s.averageDaysBetween ∧
          s.averageDaysBetween ≤ s.maxDaysBetween)) := by
  refine ⟨fun s _ => Sqrt_toReal_nonneg _, ?_⟩
  intro hne
  rw [getRepoStats_ok fetch owner repo rs hf, stats_of_ne_nil _ _ _ hne]
  refine ⟨_, rfl, Sqrt_toReal_nonneg _, ?_⟩
  intro hnz h1 h2
  obtain ⟨_, hmin, _, hmax⟩ := aggregate_min_max _ hne hnz
  have hlen : (0 : Int) < ((scanDeltas rs).length : Int) := by
    have := List.length_pos.2 hne
    exact_mod_cast this
  have hb := tdiv_bounds (scanDeltas rs).sum _ _ _ hlen
    (length_mul_le_sum _ _ hmin) (sum_le_length_mul _ _ hmax)
  rw [← aggregate_sum_of_range _ h1 h2] at hb
  exact ⟨hb, toDays_le_toDays hb.1, toDays_le_toDays hb.2⟩

theorem getRepoStats_min_le_avg_le_max_witness :
    (∃ s, getRepoStats
        (fun _ _ => (Except.ok [⟨"0.9.1", ⟨0⟩⟩, ⟨"1.0.0", ⟨3⟩⟩, ⟨"2.0.0", ⟨10⟩⟩] :
          Except String (List release))) "octo" "widget" = .ok (some s) ∧
      s.minDaysBetween ≤ s.averageDaysBetween ∧
      s.averageDaysBetween ≤ s.maxDaysBetween ∧
      0 ≤ s.standardDeviation.toReal) ∧
    (∃ s, getRepoStats
        (fun _ _ => (Except.ok [⟨"0.9.1", ⟨0⟩⟩, ⟨"1.0.0", ⟨0⟩⟩, ⟨"2.0.0", ⟨5⟩⟩] :
          Except String (List release))) "octo" "widget" = .ok (some s) ∧
      0 ≤ s.standardDeviation.toReal) :=
  ⟨((getRepoStats_min_le_avg_le_max
      (fun _ _ => (Except.ok [⟨"0.9.1", ⟨0⟩⟩, ⟨"1.0.0", ⟨3⟩⟩, ⟨"2.0.0", ⟨10⟩⟩] :
        Except String (List release))) "octo" "widget" _ rfl).2 (by decide)).imp
      (fun _ h => ⟨h.1, (h.2.2 (by decide) (by decide) (by decide)).2.1,
        (h.2.2 (by decide) (by decide) (by decide)).2.2, h.2.1⟩),
    ((getRepoStats_min_le_avg_le_max
      (fun _ _ => (Except.ok [⟨"0.9.1", ⟨0⟩⟩, ⟨"1.0.0", ⟨0⟩⟩, ⟨"2.0.0", ⟨5⟩⟩] :
        Except String (List release))) "octo" "widget" _ rfl).2 (by decide)).imp
      (fun _ h => ⟨h.1, h.2.1⟩)⟩

/-- C6 fails as stated, in two ways. With the intervals 0 and 5 days the record
has minDaysBetween = 5 above averageDaysBetween = 5/2. With two intervals at the
largest duration (publish times 2^63 ns apart and more) the `int64` sum wraps to
-2, and the record has averageDaysBetween below minDaysBetween. -/
theorem getRepoStats_min_le_avg_counterexample :
    (∃ s, getRepoStats
        (fun _ _ => (Except.ok [⟨"0.9.1", ⟨0⟩⟩, ⟨"1.0.0", ⟨0⟩⟩,
          ⟨"2.0.0", Time.addDays ⟨0⟩ 5⟩] : Except String (List release)))
        "octo" "widget" = .ok (some s) ∧
      ¬ s.minDaysBetween ≤ s.averageDaysBetween) ∧
    (∃ s, getRepoStats
        (fun _ _ => (Except.ok [⟨"0.9.1", ⟨0⟩⟩, ⟨"1.0.0", ⟨2 ^ 63⟩⟩,
          ⟨"2.0.0", ⟨2 ^ 64⟩⟩] : Except String (List release)))
        "octo" "widget" = .ok (some s) ∧
      ¬ s.minDaysBetween ≤ s.averageDaysBetween) := by
  constructor
  · have hd : scanDeltas [⟨"0.9.1", ⟨0⟩⟩, ⟨"1.0.0", ⟨0⟩⟩, ⟨"2.0.0", Time.addDays ⟨0⟩ 5⟩] =
        [0, 5 * Day] := by decide
    have ha : aggregate [0, 5 * Day] = ⟨5 * Day, 5 * Day, 5 * Day⟩ := by decide
    have hq : Int.tdiv (5 * Day) (([0, 5 * Day] : List Duration).length : Int) =
        216000000000000 := by decide
    rw [getRepoStats_ok _ "octo" "widget" _ rfl, hd, stats_of_ne_nil _ _ _ (by decide)]
    refine ⟨_, rfl, ?_⟩
    show ¬ toDays (aggregate [0, 5 * Day]).min ≤
      toDays (Int.tdiv (aggregate [0, 5 * Day]).sum (([0, 5 * Day] : List Duration).length : Int))
    rw [ha]
    show ¬ toDays (5 * Day) ≤
      toDays (Int.tdiv (5 * Day) (([0, 5 * Day] : List Duration).length : Int))
    rw [hq, toDays_mul_Day, toDays_eq]
    norm_num
  · have hd : scanDeltas [⟨"0.9.1", ⟨0⟩⟩, ⟨"1.0.0", ⟨2 ^ 63⟩⟩, ⟨"2.0.0", ⟨2 ^ 64⟩⟩] =
        [maxDuration, maxDuration] := by decide
    have ha : aggregate [maxDuration, maxDuration] = ⟨maxDuration, maxDuration, -2⟩ := by
      decide
    have hq : Int.tdiv (-2) (([maxDuration, maxDuration] : List Duration).length : Int) =
        -1 := by decide
    rw [getRepoStats_ok _ "octo" "widget" _ rfl, hd, stats_of_ne_nil _ _ _ (by decide)]
    refine ⟨_, rfl, ?_⟩
    show ¬ toDays (aggregate [maxDuration, maxDuration]).min ≤
      toDays (Int.tdiv (aggregate [maxDuration, maxDuration]).sum
        (([maxDuration, maxDuration] : List Duration).length : Int))
    rw [ha]
    show ¬ toDays maxDuration ≤
      toDays (Int.tdiv (-2) (([maxDuration, maxDuration] : List Duration).length : Int))
    rw [hq, toDays_eq, toDays_eq]
    norm_num [maxDuration]

/-- C7: for every non-empty interval list whose sum is within `int64`, the sum
variable of `getRepoStats` holds the exact sum, the averaged duration is the
quotient of that sum by the number of intervals truncated toward zero, and
averageDaysBetween is that one duration divided by 86400 seconds. It is not the
mean of the per-interval day values: for the intervals 1 ns and 2 ns the two
differ, and for -3 ns and -4 ns the average is -3 ns, the quotient -7/2 rounded
toward zero. -/
theorem stats_average (owner repo : String) (ds : List Duration) (hne : ds ≠ [])
    (h1 : minDuration ≤ ds.sum) (h2 : ds.sum ≤ maxDuration) :
    (aggregate ds).sum = ds.sum ∧
    (∃ s, stats owner repo ds = some s ∧
      (∀ (ε : Type) (fetch : String → String → Except ε (List release)) (rs : List release),
        fetch owner repo = .ok rs → scanDeltas rs = ds →
        getRepoStats fetch owner repo = .ok (some s)) ∧
      s.averageDaysBetween = toDays (Int.tdiv ds.sum (ds.length : Int)) ∧
      s.averageDaysBetween =
        ((Int.tdiv ds.sum (ds.length : Int) : Int) : ℚ) / ((86400 * Second : Int) : ℚ)) ∧
    (∃ s, stats owner repo [1, 2] = some s ∧ s.averageDaysBetween ≠ meanOfDays [1, 2]) ∧
    (∃ s, stats owner repo [-3, -4] = some s ∧ s.averageDaysBetween = toDays (-3)) := by
  have hsum := aggregate_sum_of_range ds h1 h2
  refine ⟨hsum, ⟨_, stats_of_ne_nil owner repo ds hne, ?_, ?_, ?_⟩, ?_, ?_⟩
  · intro ε fetch rs hf hds
    rw [getRepoStats_ok fetch owner repo rs hf, hds, stats_of_ne_nil owner repo ds hne]
  · show toDays (Int.tdiv (aggregate ds).sum (ds.length : Int)) = _
    rw [hsum]
  · show toDays (Int.tdiv (aggregate ds).sum (ds.length : Int)) = _
    rw [hsum]
    rfl
  · refine ⟨_, stats_of_ne_nil owner repo [1, 2] (by decide), ?_⟩
    have hq : Int.tdiv (aggregate [1, 2]).sum (([1, 2] : List Duration).length : Int) = 1 := by
      decide
    show toDays (Int.tdiv (aggregate [1, 2]).sum (([1, 2] : List Duration).length : Int)) ≠ _
    rw [hq]
    simp only [meanOfDays, toDays_eq, List.map_cons, List.map_nil, List.sum_cons, List.sum_nil,
      List.length_cons, List.length_nil]
    norm_num
  · refine ⟨_, stats_of_ne_nil owner repo [-3, -4] (by decide), ?_⟩
    have hq : Int.tdiv (aggregate [-3, -4]).sum (([-3, -4] : List Duration).length : Int) =
        -3 := by decide
    show toDays (Int.tdiv (aggregate [-3, -4]).sum
      (([-3, -4] : List Duration).length : Int)) = _
    rw [hq]

theorem stats_average_witness :
    (aggregate [7, 4, 4]).sum = ([7, 4, 4] : List Duration).sum ∧
    ∃ s, stats "octo" "widget" [7, 4, 4] = some s ∧
      s.averageDaysBetween = toDays 5 :=
  ⟨(stats_average "octo" "widget" [7, 4, 4] (by decide) (by decide) (by decide)).1,
    (stats_average "octo" "widget" [7, 4, 4] (by decide) (by decide) (by decide)).2.1.imp
      (fun _ h => ⟨h.1, h.2.2.1⟩)⟩

/-- C8: for every non-empty interval list of n durations, standardDeviation is
the population standard deviation of the interval day values around
averageDaysBetween: it is non-negative and its square times n is the sum over
the intervals of (toDays(d_i) - averageDaysBetween)^2, in exact real
arithmetic. -/
theorem stats_standardDeviation (owner repo : String) (ds : List Duration) (hne : ds ≠ []) :
    ∃ s, stats owner repo ds = some s ∧
      (∀ (ε : Type) (fetch : String → String → Except ε (List release)) (rs : List release),
        fetch owner repo = .ok rs → scanDeltas rs = ds →
        getRepoStats fetch owner repo = .ok (some s)) ∧
      0 ≤ s.standardDeviation.toReal ∧
      s.standardDeviation.toReal ^ 2 * (ds.length : ℝ) =
        (ds.map (fun d => ((toDays d : ℝ) - (s.averageDaysBetween : ℝ)) ^ 2)).sum := by
  refine ⟨_, stats_of_ne_nil owner repo ds hne, ?_, Sqrt_toReal_nonneg _, ?_⟩
  · intro ε fetch rs hf hds
    rw [getRepoStats_ok fetch owner repo rs hf, hds, stats_of_ne_nil owner repo ds hne]
  · have hl : (ds.length : ℝ) ≠ 0 := by
      have : ds.length ≠ 0 := fun e => hne (List.length_eq_zero.1 e)
      exact_mod_cast this
    have hl0 : (0 : ℝ) ≤ (ds.length : ℝ) := Nat.cast_nonneg _
    simp only [Sqrt.toReal]
    rw [Real.sq_sqrt, ← sumSquares_cast]
    · push_cast
      field_simp
    · push_cast
      exact div_nonneg (sumSquares_cast_nonneg _ _) hl0

theorem stats_standardDeviation_witness :
    ∃ s, stats "octo" "widget" [10 * Day, 30 * Day] = some s ∧
      0 ≤ s.standardDeviation.toReal ∧
      s.standardDeviation.toReal ^ 2 * (([10 * Day, 30 * Day] : List Duration).length : ℝ) =
        (([10 * Day, 30 * Day] : List Duration).map
          (fun d => ((toDays d : ℝ) - (s.averageDaysBetween : ℝ)) ^ 2)).sum :=
  (stats_standardDeviation "octo" "widget" [10 * Day, 30 * Day] (by decide)).imp
    (fun _ h => ⟨h.1, h.2.2⟩)

/-- C9: for every release list that is empty, has exactly one release, or has no
qualifying release after the first, `getRepoStats` returns NoData: a nil record
and a nil error. -/
theorem getRepoStats_noData {ε : Type} (fetch : String → String → Except ε (List release))
    (owner repo : String) (rs : List release) (hf : fetch owner repo = .ok rs)
    (h : rs = [] ∨ rs.length = 1 ∨ ∀ r ∈ rs.tail, qualifies r.Name = false) :
    getRepoStats fetch owner repo = .ok none := by
  have ht : ∀ r ∈ rs.tail, qualifies r.Name = false := by
    rcases h with rfl | h | h
    · simp
    · cases rs with
      | nil => simp
      | cons r0 rest =>
        have : rest = [] := by simpa using h
        subst this
        simp
    · exact h
  rw [getRepoStats_ok fetch owner repo rs hf]
  cases rs with
  | nil => rfl
  | cons r0 rest => rw [scanDeltas_of_not_qualifies r0 rest ht, stats_nil]

theorem getRepoStats_noData_witness :
    getRepoStats
      (fun _ _ => (Except.ok [⟨"1.0.0", ⟨0⟩⟩, ⟨"1.0.1", ⟨5⟩⟩, ⟨"1.1", ⟨9⟩⟩] :
        Except String (List release))) "octo" "widget" = .ok none :=
  getRepoStats_noData _ "octo" "widget" _ rfl (Or.inr (Or.inr (by decide)))

/-- C10 (as amended): for every release list for which `getRepoStats` returns a
record (the interval list is non-empty), dotZeroVersions is the number of
intervals collected; when the first release has a non-empty name, that is the
number of releases after the first whose name qualifies, the first release not
being counted even when it qualifies. -/
theorem getRepoStats_dotZeroVersions {ε : Type}
    (fetch : String → String → Except ε (List release)) (owner repo : String)
    (rs : List release) (hf : fetch owner repo = .ok rs) (hne : scanDeltas rs ≠ []) :
    ∃ s, getRepoStats fetch owner repo = .ok (some s) ∧
      s.dotZeroVersions = ((scanDeltas rs).length : Int) ∧
      ∀ r0 rest, rs = r0 :: rest → r0.Name ≠ "" →
        s.dotZeroVersions = ((rest.filter (fun r => qualifies r.Name)).length : Int) := by
  rw [getRepoStats_ok fetch owner repo rs hf, stats_of_ne_nil _ _ _ hne]
  refine ⟨_, rfl, rfl, ?_⟩
  intro r0 rest hrs hn
  subst hrs
  show ((scanDeltas (r0 :: rest)).length : Int) = _
  rw [scanDeltas_of_named r0 rest hn, consecutiveDiffs_length]

theorem getRepoStats_dotZeroVersions_witness :
    ∃ s, getRepoStats
        (fun _ _ => (Except.ok [⟨"1.0.0", ⟨0⟩⟩, ⟨"1.1.0", ⟨5⟩⟩, ⟨"1.1.1", ⟨7⟩⟩,
          ⟨"1.2.0", ⟨9⟩⟩] : Except String (List release))) "octo" "widget" = .ok (some s) ∧
      s.dotZeroVersions = 2 :=
  (getRepoStats_dotZeroVersions
    (fun _ _ => (Except.ok [⟨"1.0.0", ⟨0⟩⟩, ⟨"1.1.0", ⟨5⟩⟩, ⟨"1.1.1", ⟨7⟩⟩,
      ⟨"1.2.0", ⟨9⟩⟩] : Except String (List release))) "octo" "widget" _ rfl
    (by decide)).imp
    (fun _ h => ⟨h.1, (h.2.2 _ _ rfl (by decide)).trans (by decide)⟩)

/-- C10 fails as stated for a first release with an empty name: of the releases
"", "1.0.0" and "2.0.0", two after the first qualify, and the record has
dotZeroVersions = 1, because "1.0.0" replaces the empty-named anchor without
being tested. -/
theorem getRepoStats_dotZeroVersions_counterexample :
    (([⟨"1.0.0", Time.addDays ⟨0⟩ 5⟩, ⟨"2.0.0", Time.addDays ⟨0⟩ 10⟩] : List release).filter
      (fun r => qualifies r.Name)).length = 2 ∧
    ∃ s, getRepoStats
        (fun _ _ => (Except.ok [⟨"", ⟨0⟩⟩, ⟨"1.0.0", Time.addDays ⟨0⟩ 5⟩,
          ⟨"2.0.0", Time.addDays ⟨0⟩ 10⟩] : Except String (List release)))
        "octo" "widget" = .ok (some s) ∧
      s.dotZeroVersions = 1 ∧
      s.dotZeroVersions ≠
        ((([⟨"1.0.0", Time.addDays ⟨0⟩ 5⟩, ⟨"2.0.0", Time.addDays ⟨0⟩ 10⟩] : List release).filter
          (fun r => qualifies r.Name)).length : Int) := by
  have hd : scanDeltas [⟨"", ⟨0⟩⟩, ⟨"1.0.0", Time.addDays ⟨0⟩ 5⟩,
      ⟨"2.0.0", Time.addDays ⟨0⟩ 10⟩] = [5 * Day] := by decide
  refine ⟨by decide, ?_⟩
  rw [getRepoStats_ok _ "octo" "widget" _ rfl, hd, stats_of_ne_nil _ _ _ (by decide)]
  exact ⟨_, rfl, by decide, by decide⟩

/-- C11: for three qualifying releases published at days 0, 10 and 40,
`getRepoStats` collects the intervals 10 days and 30 days and returns
dotZeroVersions = 2, minDaysBetween = 10, maxDaysBetween = 30,
averageDaysBetween = 20 and standardDeviation =
sqrt(((10-20)^2 + (30-20)^2)/2) = 10. -/
theorem getRepoStats_days_0_10_40 {ε : Type}
    (fetch : String → String → Except ε (List release)) (owner repo n0 n1 n2 : String)
    (t0 : Time)
    (h0 : qualifies n0 = true) (h1 : qualifies n1 = true) (h2 : qualifies n2 = true)
    (hf : fetch owner repo = .ok [⟨n0, t0⟩, ⟨n1, t0.addDays 10⟩, ⟨n2, t0.addDays 40⟩]) :
    scanDeltas [⟨n0, t0⟩, ⟨n1, t0.addDays 10⟩, ⟨n2, t0.addDays 40⟩] =
      [10 * Day, 30 * Day] ∧
    ∃ s, getRepoStats fetch owner repo = .ok (some s) ∧
      s.owner = owner ∧ s.repo = repo ∧ s.dotZeroVersions = 2 ∧
      s.minDaysBetween = 10 ∧ s.maxDaysBetween = 30 ∧ s.averageDaysBetween = 20 ∧
      s.standardDeviation.toReal = Real.sqrt (((10 - 20) ^ 2 + (30 - 20) ^ 2) / 2) ∧
      s.standardDeviation.toReal = 10 := by
  have hd := scanDeltas_days_0_10_40 n0 n1 n2 t0 h0 h1 h2
  refine ⟨hd, ?_⟩
  rw [getRepoStats_ok fetch owner repo _ hf, hd, stats_ten_thirty]
  refine ⟨_, rfl, rfl, rfl, rfl, rfl, rfl, rfl, ?_, ?_⟩
  · simp only [Sqrt.toReal]
    norm_num
  · have h := Sqrt_toReal_of_sq 10 (by norm_num)
    norm_num at h
    exact h

theorem getRepoStats_days_0_10_40_witness :
    ∃ s, getRepoStats
        (fun _ _ => (Except.ok [⟨"1.0.0", ⟨0⟩⟩, ⟨"1.1.0", Time.addDays ⟨0⟩ 10⟩,
          ⟨"2.0.0", Time.addDays ⟨0⟩ 40⟩] : Except String (List release)))
        "octo" "widget" = .ok (some s) ∧
      s.owner = "octo" ∧ s.repo = "widget" ∧ s.dotZeroVersions = 2 ∧
      s.minDaysBetween = 10 ∧ s.maxDaysBetween = 30 ∧ s.averageDaysBetween = 20 ∧
      s.standardDeviation.toReal = Real.sqrt (((10 - 20) ^ 2 + (30 - 20) ^ 2) / 2) ∧
      s.standardDeviation.toReal = 10 :=
  (getRepoStats_days_0_10_40 (fun _ _ => Except.ok _) "octo" "widget" "1.0.0" "1.1.0" "2.0.0"
    ⟨0⟩ (by decide) (by decide) (by decide) rfl).2

/-- C12: in `main`, an identifier `o/n` with no "/" in `o` and in `n` resolves
to owner `o` and repository `n` for every default owner; an identifier without
"/" resolves to the default owner and the identifier when the default owner is
non-empty, and is skipped when it is empty: the iteration only writes the
"Skipping" line, whatever the fetcher. -/
theorem resolve_spec (d o n id : String) (ho : Contains o '/' = false)
    (hn : Contains n '/' = false) (hid : Contains id '/' = false) :
    resolve d (o ++ "/" ++ n) = .ok (some (o, n)) ∧
    (d ≠ "" → resolve d id = .ok (some (d, id))) ∧
    resolve "" id = .ok none ∧
    (∀ (ε : Type) (fetch : String → String → Except ε (List release)) (st : MainState ε),
      mainStep fetch "" st id = .ok { st with log := st.log ++ [.skipping id] }) := by
  have h3 : resolve "" id = .ok none := by
    rw [resolve_of_no_slash "" id hid, if_pos rfl]
  refine ⟨resolve_slash d o n ho hn, ?_, h3, ?_⟩
  · intro hd
    rw [resolve_of_no_slash d id hid, if_neg hd]
  · intro ε fetch st
    simp only [mainStep, h3]

theorem resolve_spec_witness :
    resolve "acme" ("octo" ++ "/" ++ "widget") = .ok (some ("octo", "widget")) ∧
    resolve "" ("octo" ++ "/" ++ "widget") = .ok (some ("octo", "widget")) ∧
    resolve "octo" "widget" = .ok (some ("octo", "widget")) ∧
    resolve "" "widget" = .ok none :=
  ⟨(resolve_spec "acme" "octo" "widget" "widget" (by decide) (by decide) (by decide)).1,
    (resolve_spec "" "octo" "widget" "widget" (by decide) (by decide) (by decide)).1,
    (resolve_spec "octo" "octo" "widget" "widget" (by decide) (by decide) (by decide)).2.1
      (by decide),
    (resolve_spec "acme" "octo" "widget" "widget" (by decide) (by decide) (by decide)).2.2.1⟩

/-- C13: for every non-empty list of identifiers and every fetcher, `main`
goes through the whole list and reports exactly the records `getRepoStats`
returns, in input order; an identifier that is skipped, whose stats end in an
error, or that has no data adds no row (a skip or an error adds its log line),
and the rows of a list are the rows of its parts, one after the other. -/
theorem main_rows {ε : Type} (fetch : String → String → Except ε (List release))
    (owner : String) (repos : List String) (hne : repos ≠ []) :
    main fetch owner repos =
      .ok (.report (repos.filterMap (rowOf fetch owner))
        (repos.flatMap (logOf fetch owner))) ∧
    (∀ repo ∈ repos, ∀ s, rowOf fetch owner repo = some s →
      s ∈ repos.filterMap (rowOf fetch owner)) ∧
    (∀ l1 l2 : List String, l1 ++ l2 = repos →
      repos.filterMap (rowOf fetch owner) =
        l1.filterMap (rowOf fetch owner) ++ l2.filterMap (rowOf fetch owner)) := by
  refine ⟨?_, ?_, ?_⟩
  · have hl : repos.length ≠ 0 := fun e => hne (List.length_eq_zero.1 e)
    unfold main
    rw [if_neg hl, mainLoop_ok]
    simp
  · intro repo hrepo s hs
    exact List.mem_filterMap.2 ⟨repo, hrepo, hs⟩
  · rintro l1 l2 rfl
    exact List.filterMap_append _ _ _

theorem main_rows_witness :
    main (fun o r => if o = "octo" ∧ r = "widget" then
        (Except.ok [⟨"1.0.0", ⟨0⟩⟩, ⟨"1.1.0", Time.addDays ⟨0⟩ 10⟩,
          ⟨"2.0.0", Time.addDays ⟨0⟩ 40⟩] : Except String (List release))
        else .error "not found") "" ["octo/missing", "orphan", "octo/widget"] =
      .ok (.report
        (["octo/missing", "orphan", "octo/widget"].filterMap
          (rowOf (fun o r => if o = "octo" ∧ r = "widget" then
            (Except.ok [⟨"1.0.0", ⟨0⟩⟩, ⟨"1.1.0", Time.addDays ⟨0⟩ 10⟩,
              ⟨"2.0.0", Time.addDays ⟨0⟩ 40⟩] : Except String (List release))
            else .error "not found") ""))
        (["octo/missing", "orphan", "octo/widget"].flatMap
          (logOf (fun o r => if o = "octo" ∧ r = "widget" then
            (Except.ok [⟨"1.0.0", ⟨0⟩⟩, ⟨"1.1.0", Time.addDays ⟨0⟩ 10⟩,
              ⟨"2.0.0", Time.addDays ⟨0⟩ 40⟩] : Except String (List release))
            else .error "not found") ""))) :=
  (main_rows _ "" ["octo/missing", "orphan", "octo/widget"] (by decide)).1

/-- C14: the anchor of `getRepoStats` counts as unset while its name is empty,
so the leading releases of empty name are discarded: every release list is a
prefix of empty-named releases followed by the rest, the intervals and the
result of `getRepoStats` on the list are those on the rest, and the seed is
the first release of the rest, of non-empty name and never tested: the
intervals are the consecutive differences along it and the qualifying releases
after it. -/
theorem getRepoStats_dropEmptyNamed (rs : List release) :
    (∃ pre : List release, rs = pre ++ dropEmptyNamed rs ∧ ∀ r ∈ pre, r.Name = "") ∧
    scanDeltas rs = scanDeltas (dropEmptyNamed rs) ∧
    (∀ (ε : Type) (fetch1 fetch2 : String → String → Except ε (List release))
      (owner repo : String),
      fetch1 owner repo = .ok rs → fetch2 owner repo = .ok (dropEmptyNamed rs) →
      getRepoStats fetch1 owner repo = getRepoStats fetch2 owner repo) ∧
    (∀ r0 rest, dropEmptyNamed rs = r0 :: rest →
      r0.Name ≠ "" ∧
      scanDeltas rs = consecutiveDiffs (r0 :: rest.filter (fun r => qualifies r.Name))) ∧
    (dropEmptyNamed rs = [] → scanDeltas rs = []) := by
  have hd := scanDeltas_dropEmptyNamed rs
  refine ⟨dropEmptyNamed_leading rs, hd, ?_, ?_, ?_⟩
  · intro ε fetch1 fetch2 owner repo h1 h2
    rw [getRepoStats_ok fetch1 owner repo _ h1, getRepoStats_ok fetch2 owner repo _ h2, hd]
  · intro r0 rest h
    have hn := dropEmptyNamed_head_named rs r0 rest h
    refine ⟨hn, ?_⟩
    rw [hd, h, scanDeltas_of_named r0 rest hn]
  · intro h
    rw [hd, h]
    rfl

theorem getRepoStats_dropEmptyNamed_witness :
    dropEmptyNamed [⟨"", ⟨0⟩⟩, ⟨"", ⟨2⟩⟩, ⟨"1.0.0", ⟨5⟩⟩, ⟨"", ⟨6⟩⟩, ⟨"2.0.0", ⟨10⟩⟩] =
      [⟨"1.0.0", ⟨5⟩⟩, ⟨"", ⟨6⟩⟩, ⟨"2.0.0", ⟨10⟩⟩] ∧
    scanDeltas [⟨"", ⟨0⟩⟩, ⟨"", ⟨2⟩⟩, ⟨"1.0.0", ⟨5⟩⟩, ⟨"", ⟨6⟩⟩, ⟨"2.0.0", ⟨10⟩⟩] =
      consecutiveDiffs ((⟨"1.0.0", ⟨5⟩⟩ : release) ::
        [(⟨"", ⟨6⟩⟩ : release), ⟨"2.0.0", ⟨10⟩⟩].filter (fun r => qualifies r.Name)) :=
  ⟨by decide,
    ((getRepoStats_dropEmptyNamed
      [⟨"", ⟨0⟩⟩, ⟨"", ⟨2⟩⟩, ⟨"1.0.0", ⟨5⟩⟩, ⟨"", ⟨6⟩⟩, ⟨"2.0.0", ⟨10⟩⟩]).2.2.2.1
      _ _ (by decide)).2⟩

/-- C15: for every non-empty interval list of strictly positive durations, the
`min` and `max` of the loop of `getRepoStats` are the minimum and the maximum
of the list, and the record holds them converted to days. -/
theorem aggregate_of_pos (owner repo : String) (ds : List Duration) (hne : ds ≠ [])
    (hpos : ∀ d ∈ ds, 0 < d) :
    ((aggregate ds).min ∈ ds ∧ ∀ d ∈ ds, (aggregate ds).min ≤ d) ∧
    ((aggregate ds).max ∈ ds ∧ ∀ d ∈ ds, d ≤ (aggregate ds).max) ∧
    List.minimum ds = ((aggregate ds).min : WithTop Int) ∧
    List.maximum ds = ((aggregate ds).max : WithBot Int) ∧
    ∃ s, stats owner repo ds = some s ∧
      s.minDaysBetween = toDays (aggregate ds).min ∧
      s.maxDaysBetween = toDays (aggregate ds).max := by
  have hnz : ∀ d ∈ ds, d ≠ 0 := fun d hd => ne_of_gt (hpos d hd)
  obtain ⟨m1, m2, x1, x2⟩ := aggregate_min_max ds hne hnz
  refine ⟨⟨m1, m2⟩, ⟨x1, x2⟩, List.minimum_eq_coe_iff.2 ⟨m1, m2⟩,
    List.maximum_eq_coe_iff.2 ⟨x1, x2⟩, ?_⟩
  rw [stats_of_ne_nil owner repo ds hne]
  exact ⟨_, rfl, rfl, rfl⟩

theorem aggregate_of_pos_witness :
    (aggregate [7, 3, 9]).min = 3 ∧ (aggregate [7, 3, 9]).max = 9 ∧
    List.minimum ([7, 3, 9] : List Duration) = ((aggregate [7, 3, 9]).min : WithTop Int) ∧
    List.maximum ([7, 3, 9] : List Duration) = ((aggregate [7, 3, 9]).max : WithBot Int) :=
  ⟨by decide, by decide,
    (aggregate_of_pos "octo" "widget" [7, 3, 9] (by decide) (by decide)).2.2.1,
    (aggregate_of_pos "octo" "widget" [7, 3, 9] (by decide) (by decide)).2.2.2.1⟩

/-- C16: for every release list whose first release has a non-empty name, with
a qualifying release after it, no saturated interval and a span within `int64`,
the intervals sum to the span from the first release to the last qualifying
release, the sum variable holds it, and `getRepoStats` returns a record whose
averageDaysBetween is the span divided (truncating) by dotZeroVersions,
converted to days. -/
theorem scanDeltas_sum_telescopes {ε : Type}
    (fetch : String → String → Except ε (List release)) (owner repo : String)
    (r0 : release) (rest : List release) (hf : fetch owner repo = .ok (r0 :: rest))
    (hn : r0.Name ≠ "") (hq : rest.filter (fun r => qualifies r.Name) ≠ [])
    (hsat : noSaturation (r0 :: rest.filter (fun r => qualifies r.Name)) = true)
    (h1 : minDuration ≤ span r0 rest) (h2 : span r0 rest ≤ maxDuration) :
    (scanDeltas (r0 :: rest)).sum = span r0 rest ∧
    (aggregate (scanDeltas (r0 :: rest))).sum = span r0 rest ∧
    ((rest.filter (fun r => qualifies r.Name)).getLastD r0).PublishedAt.Sub r0.PublishedAt =
      span r0 rest ∧
    ∃ s, getRepoStats fetch owner repo = .ok (some s) ∧
      s.dotZeroVersions = ((rest.filter (fun r => qualifies r.Name)).length : Int) ∧
      s.averageDaysBetween = toDays (Int.tdiv (span r0 rest) s.dotZeroVersions) := by
  have hd := scanDeltas_of_named r0 rest hn
  have hsum : (scanDeltas (r0 :: rest)).sum = span r0 rest := by
    rw [hd, consecutiveDiffs_sum _ _ hsat]
    rfl
  have hlen : (scanDeltas (r0 :: rest)).length =
      (rest.filter (fun r => qualifies r.Name)).length := by
    rw [hd, consecutiveDiffs_length]
  have hne : scanDeltas (r0 :: rest) ≠ [] := by
    intro e
    rw [e] at hlen
    exact hq (List.length_eq_zero.1 hlen.symm)
  have hagg : (aggregate (scanDeltas (r0 :: rest))).sum = span r0 rest := by
    rw [aggregate_sum_of_range _ (by rw [hsum]; exact h1) (by rw [hsum]; exact h2), hsum]
  refine ⟨hsum, hagg, Time.Sub_of_range _ _ h1 h2, ?_⟩
  rw [getRepoStats_ok fetch owner repo _ hf, stats_of_ne_nil _ _ _ hne]
  refine ⟨_, rfl, ?_, ?_⟩
  · show ((scanDeltas (r0 :: rest)).length : Int) = _
    rw [hlen]
  · show toDays (Int.tdiv (aggregate (scanDeltas (r0 :: rest))).sum
      ((scanDeltas (r0 :: rest)).length : Int)) = _
    rw [hagg]

theorem scanDeltas_sum_telescopes_witness :
    (scanDeltas [⟨"0.9.1", ⟨2⟩⟩, ⟨"1.0.0", ⟨5⟩⟩, ⟨"1.0.1", ⟨6⟩⟩, ⟨"1.1.0", ⟨9⟩⟩,
      ⟨"2.0.0", ⟨20⟩⟩]).sum = 18 ∧
    ∃ s, getRepoStats
        (fun _ _ => (Except.ok [⟨"0.9.1", ⟨2⟩⟩, ⟨"1.0.0", ⟨5⟩⟩, ⟨"1.0.1", ⟨6⟩⟩,
          ⟨"1.1.0", ⟨9⟩⟩, ⟨"2.0.0", ⟨20⟩⟩] : Except String (List release)))
        "octo" "widget" = .ok (some s) ∧
      s.dotZeroVersions = 3 ∧
      s.averageDaysBetween = toDays (Int.tdiv 18 s.dotZeroVersions) :=
  ⟨(scanDeltas_sum_telescopes
      (fun _ _ => (Except.ok [⟨"0.9.1", ⟨2⟩⟩, ⟨"1.0.0", ⟨5⟩⟩, ⟨"1.0.1", ⟨6⟩⟩,
        ⟨"1.1.0", ⟨9⟩⟩, ⟨"2.0.0", ⟨20⟩⟩] : Except String (List release)))
      "octo" "widget" _ _ rfl (by decide) (by decide) (by decide) (by decide)
      (by decide)).1.trans (by decide),
    (scanDeltas_sum_telescopes
      (fun _ _ => (Except.ok [⟨"0.9.1", ⟨2⟩⟩, ⟨"1.0.0", ⟨5⟩⟩, ⟨"1.0.1", ⟨6⟩⟩,
        ⟨"1.1.0", ⟨9⟩⟩, ⟨"2.0.0", ⟨20⟩⟩] : Except String (List release)))
      "octo" "widget" _ _ rfl (by decide) (by decide) (by decide) (by decide)
      (by decide)).2.2.2⟩

/-- C17 (as amended): for every non-empty interval list whose durations all
equal one value d and whose sum n*d is within `int64` (as it is for every
single-interval list), `getRepoStats` returns minDaysBetween = maxDaysBetween =
averageDaysBetween = toDays(d) and standardDeviation = 0. -/
theorem stats_all_equal (owner repo : String) (ds : List Duration) (d : Duration)
    (hne : ds ≠ []) (hall : ∀ x ∈ ds, x = d)
    (h1 : minDuration ≤ (ds.length : Int) * d) (h2 : (ds.length : Int) * d ≤ maxDuration) :
    ∃ s, stats owner repo ds = some s ∧
      (∀ (ε : Type) (fetch : String → String → Except ε (List release)) (rs : List release),
        fetch owner repo = .ok rs → scanDeltas rs = ds →
        getRepoStats fetch owner repo = .ok (some s)) ∧
      s.dotZeroVersions = (ds.length : Int) ∧
      s.minDaysBetween = toDays d ∧ s.maxDaysBetween = toDays d ∧
      s.averageDaysBetween = toDays d ∧ s.standardDeviation.toReal = 0 := by
  have hrep : ds = List.replicate ds.length d := List.eq_replicate_iff.2 ⟨rfl, hall⟩
  have hpos : 0 < ds.length := List.length_pos.2 hne
  have hst := stats_replicate owner repo d ds.length hpos h1 h2
  rw [← hrep] at hst
  refine ⟨_, hst, ?_, rfl, rfl, rfl, rfl, ?_⟩
  · intro ε fetch rs hf hds
    rw [getRepoStats_ok fetch owner repo rs hf, hds, hst]
  · simp [Sqrt.toReal]

theorem stats_all_equal_witness :
    ∃ s, stats "octo" "widget" [20 * Day] = some s ∧
      s.minDaysBetween = toDays (20 * Day) ∧ s.maxDaysBetween = toDays (20 * Day) ∧
      s.averageDaysBetween = toDays (20 * Day) ∧ s.standardDeviation.toReal = 0 :=
  (stats_all_equal "octo" "widget" [20 * Day] (20 * Day) (by decide) (by decide)
    (by decide) (by decide)).imp (fun _ h => ⟨h.1, h.2.2.2⟩)

/-- C17 fails as stated when the sum of the equal intervals overflows: for
releases 2^63 ns apart both intervals are the largest duration, the `int64` sum
wraps to -2, and the record has averageDaysBetween = toDays(-1), not the day
value of the interval, and a standardDeviation above 0. -/
theorem stats_all_equal_counterexample :
    scanDeltas [⟨"0.9.1", ⟨0⟩⟩, ⟨"1.0.0", ⟨2 ^ 63⟩⟩, ⟨"2.0.0", ⟨2 ^ 64⟩⟩] =
      [maxDuration, maxDuration] ∧
    ∃ s, getRepoStats
        (fun _ _ => (Except.ok [⟨"0.9.1", ⟨0⟩⟩, ⟨"1.0.0", ⟨2 ^ 63⟩⟩,
          ⟨"2.0.0", ⟨2 ^ 64⟩⟩] : Except String (List release)))
        "octo" "widget" = .ok (some s) ∧
      s.minDaysBetween = toDays maxDuration ∧
      s.averageDaysBetween = toDays (-1) ∧
      s.averageDaysBetween ≠ toDays maxDuration ∧
      s.standardDeviation.toReal ≠ 0 := by
  have hd : scanDeltas [⟨"0.9.1", ⟨0⟩⟩, ⟨"1.0.0", ⟨2 ^ 63⟩⟩, ⟨"2.0.0", ⟨2 ^ 64⟩⟩] =
      [maxDuration, maxDuration] := by decide
  have ha : aggregate [maxDuration, maxDuration] = ⟨maxDuration, maxDuration, -2⟩ := by
    decide
  have hq : Int.tdiv (-2) (([maxDuration, maxDuration] : List Duration).length : Int) =
      -1 := by decide
  have hne : toDays (-1) ≠ toDays maxDuration := by
    rw [toDays_eq, toDays_eq]
    norm_num [maxDuration]
  refine ⟨hd, ?_⟩
  rw [getRepoStats_ok _ "octo" "widget" _ rfl, hd, stats_of_ne_nil _ _ _ (by decide)]
  refine ⟨_, rfl, ?_, ?_, ?_, ?_⟩
  · show toDays (aggregate [maxDuration, maxDuration]).min = _
    rw [ha]
  · show toDays (Int.tdiv (aggregate [maxDuration, maxDuration]).sum
      (([maxDuration, maxDuration] : List Duration).length : Int)) = _
    rw [ha]
    show toDays (Int.tdiv (-2) (([maxDuration, maxDuration] : List Duration).length : Int)) = _
    rw [hq]
  · show toDays (Int.tdiv (aggregate [maxDuration, maxDuration]).sum
      (([maxDuration, maxDuration] : List Duration).length : Int)) ≠ _
    rw [ha]
    show toDays (Int.tdiv (-2) (([maxDuration, maxDuration] : List Duration).length : Int)) ≠ _
    rw [hq]
    exact hne
  · show Real.sqrt ((sumSquares (toDays (Int.tdiv (aggregate [maxDuration, maxDuration]).sum
      (([maxDuration, maxDuration] : List Duration).length : Int)))
      [maxDuration, maxDuration] / (([maxDuration, maxDuration] : List Duration).length : ℚ) :
        ℚ) : ℝ) ≠ 0
    rw [ha]
    show Real.sqrt ((sumSquares (toDays (Int.tdiv (-2)
      (([maxDuration, maxDuration] : List Duration).length : Int)))
      [maxDuration, maxDuration] / (([maxDuration, maxDuration] : List Duration).length : ℚ) :
        ℚ) : ℝ) ≠ 0
    rw [hq]
    have hpos : (0 : ℚ) < sumSquares (toDays (-1)) [maxDuration, maxDuration] /
        (([maxDuration, maxDuration] : List Duration).length : ℚ) := by
      simp only [sumSquares, List.foldl_cons, List.foldl_nil, toDays_eq, maxDuration,
        List.length_cons, List.length_nil]
      norm_num
    have hposR : (0 : ℝ) < ((sumSquares (toDays (-1)) [maxDuration, maxDuration] /
        (([maxDuration, maxDuration] : List Duration).length : ℚ) : ℚ) : ℝ) := by
      exact_mod_cast hpos
    exact ne_of_gt (Real.sqrt_pos.2 hposR)

/-- C18: over a page query, when the pages form a chain of k >= 1 pages linked
by their end cursors from a nil cursor, only the last without a next page,
`fetchMajorReleases` returns (with fuel for k queries) the release nodes of the
pages, concatenated in page order; when a query fails after any number of pages
that each have a next page, it returns that error and no releases. -/
theorem fetchMajorReleases_pages {ε : Type}
    (query : String → String → Option String → Except ε Page) (owner repo : String)
    (pages : List Page) :
    (PageChain query owner repo none pages →
      1 ≤ pages.length ∧
      ∀ fuel, pages.length ≤ fuel →
        fetchMajorReleases query fuel owner repo = some (.ok (pages.flatMap Page.Nodes))) ∧
    (∀ err, FailingChain query owner repo err none pages →
      ∀ fuel, pages.length + 1 ≤ fuel →
        fetchMajorReleases query fuel owner repo = some (.error err)) := by
  constructor
  · intro h
    constructor
    · cases pages with
      | nil => exact absurd h (by simp [PageChain])
      | cons p ps => simp
    · intro fuel hfuel
      unfold fetchMajorReleases
      rw [fetchLoop_chain query owner repo pages none [] fuel h hfuel]
      simp
  · intro err h fuel hfuel
    exact fetchLoop_failing query owner repo err pages none [] fuel h hfuel

theorem fetchMajorReleases_pages_witness :
    fetchMajorReleases
      (fun _ _ after =>
        if after = none then
          (Except.ok ⟨[⟨"1.0.0", ⟨0⟩⟩, ⟨"1.0.1", ⟨3⟩⟩], "c1", true⟩ : Except String Page)
        else if after = some "c1" then .ok ⟨[⟨"1.1.0", ⟨7⟩⟩], "c2", false⟩
        else .error "bad cursor") 2 "octo" "widget" =
      some (.ok [⟨"1.0.0", ⟨0⟩⟩, ⟨"1.0.1", ⟨3⟩⟩, ⟨"1.1.0", ⟨7⟩⟩]) ∧
    fetchMajorReleases
      (fun _ _ after =>
        if after = none then
          (Except.ok ⟨[⟨"1.0.0", ⟨0⟩⟩, ⟨"1.0.1", ⟨3⟩⟩], "c1", true⟩ : Except String Page)
        else .error "rate limited") 2 "octo" "widget" =
      some (.error "rate limited") :=
  ⟨((fetchMajorReleases_pages
      (fun _ _ after =>
        if after = none then
          (Except.ok ⟨[⟨"1.0.0", ⟨0⟩⟩, ⟨"1.0.1", ⟨3⟩⟩], "c1", true⟩ : Except String Page)
        else if after = some "c1" then .ok ⟨[⟨"1.1.0", ⟨7⟩⟩], "c2", false⟩
        else .error "bad cursor") "octo" "widget"
      [⟨[⟨"1.0.0", ⟨0⟩⟩, ⟨"1.0.1", ⟨3⟩⟩], "c1", true⟩, ⟨[⟨"1.1.0", ⟨7⟩⟩], "c2", false⟩]).1
      ⟨rfl, rfl, rfl, rfl⟩).2 2 (by decide),
    (fetchMajorReleases_pages
      (fun _ _ after =>
        if after = none then
          (Except.ok ⟨[⟨"1.0.0", ⟨0⟩⟩, ⟨"1.0.1", ⟨3⟩⟩], "c1", true⟩ : Except String Page)
        else .error "rate limited") "octo" "widget"
      [⟨[⟨"1.0.0", ⟨0⟩⟩, ⟨"1.0.1", ⟨3⟩⟩], "c1", true⟩]).2 "rate limited"
      ⟨rfl, rfl, rfl⟩ 2 (by decide)⟩

/-- C19: the unchecked indexings stay in range. For every identifier that
contains "/", its split on "/" has at least 2 parts, so `parts[0]` and
`parts[1]` of `main` exist and the resolution ends without a failure (as it
does for every identifier); and in `getRepoStats`, where `parts[2]` is read
only after the test `len(parts) < 3` fails, the scan with index checks ends
without a failure in the state of the scan without them. -/
theorem index_checks_ok (d id : String) (rs : List release)
    (h : Contains id '/' = true) :
    2 ≤ (Split id '/').length ∧
    (∃ o n, index (Split id '/') 0 = .ok o ∧ index (Split id '/') 1 = .ok n ∧
      resolve d id = .ok (some (o, n))) ∧
    (∀ d1 id1 : String, ∃ r, resolve d1 id1 = .ok r) ∧
    (∀ (st : ScanState) (r : release), scanStepChecked st r = .ok (scanStep st r)) ∧
    scanChecked rs { prev := ⟨"", ⟨0⟩⟩, deltas := [] } = .ok (scan rs) := by
  have hl := Split_length_of_Contains id '/' h
  have h0 := index_of_lt (Split id '/') 0 (by omega)
  have h1 := index_of_lt (Split id '/') 1 (by omega)
  refine ⟨hl, ⟨_, _, h0, h1, ?_⟩, resolve_ok, scanStepChecked_ok, scanChecked_ok rs _⟩
  unfold resolve
  rw [if_pos h]
  simp only [h0, h1]

theorem index_checks_ok_witness :
    2 ≤ (Split "a/b/c" '/').length ∧
    (∃ o n, index (Split "a/b/c" '/') 0 = .ok o ∧ index (Split "a/b/c" '/') 1 = .ok n ∧
      resolve "x" "a/b/c" = .ok (some (o, n))) ∧
    scanChecked [⟨"0.9", ⟨0⟩⟩, ⟨"1.0", ⟨1⟩⟩, ⟨"1.0.0", ⟨5⟩⟩]
      { prev := ⟨"", ⟨0⟩⟩, deltas := [] } =
      .ok (scan [⟨"0.9", ⟨0⟩⟩, ⟨"1.0", ⟨1⟩⟩, ⟨"1.0.0", ⟨5⟩⟩]) :=
  ⟨(index_checks_ok "x" "a/b/c" [⟨"0.9", ⟨0⟩⟩, ⟨"1.0", ⟨1⟩⟩, ⟨"1.0.0", ⟨5⟩⟩] (by decide)).1,
    (index_checks_ok "x" "a/b/c" [⟨"0.9", ⟨0⟩⟩, ⟨"1.0", ⟨1⟩⟩, ⟨"1.0.0", ⟨5⟩⟩]
      (by decide)).2.1,
    (index_checks_ok "x" "a/b/c" [⟨"0.9", ⟨0⟩⟩, ⟨"1.0", ⟨1⟩⟩, ⟨"1.0.0", ⟨5⟩⟩]
      (by decide)).2.2.2.2⟩

end ReleaseStats
